import Mathlib

/-!
Verification development for the pony-gen schema-introspection and model-synthesis
pipeline.  The Python sources (`src/cli.py`, `src/utils.py`,
`src/sanitize_column_name.py`, `src/base.py`, `src/sqlite.py`, `src/postgres.py`,
`src/mysql.py`) are shallowly embedded below: pure functions become Lean
functions, Python exceptions become `Except`/`Option` results, the mutable
counter dictionaries become explicit state threaded through folds, and the
class-level `imports` set becomes an explicit insertion-ordered list parameter.

Character-level modelling conventions (the Python code operates on `str` with
ASCII identifiers in every relevant path): `str.lower`/`str.upper` are modelled
by `Char.toLower`/`Char.toUpper` (ASCII case mapping), `str.isalpha`,
`str.isdigit`, `str.isalnum` and the regex classes `\W`, `[^a-zA-Z0-9]` by the
corresponding ASCII character-range tests, and `str.isidentifier` by the ASCII
identifier grammar (letter or underscore, then letters, digits, underscores).
The third-party `slugify(text, separator='_')` is modelled by its documented
ASCII behaviour: lower-case, then join the maximal runs of characters in
`[a-z0-9]` with single underscores (transliteration is modelled as the identity
on ASCII; other characters act as separators).  `inflection.underscore` and
`inflection.camelize` are modelled from their sources (regex substitutions
turned into character scans).
-/

/-- ASCII lower-case letter test, `97 ≤ c ≤ 122`. -/
def isLowerAlpha (c : Char) : Bool := 97 ≤ c.toNat && c.toNat ≤ 122

/-- ASCII upper-case letter test, `65 ≤ c ≤ 90`. -/
def isUpperAlpha (c : Char) : Bool := 65 ≤ c.toNat && c.toNat ≤ 90

/-- ASCII digit test, `48 ≤ c ≤ 57`. -/
def isDigitCh (c : Char) : Bool := 48 ≤ c.toNat && c.toNat ≤ 57

/-- Model of Python `str.isalpha` restricted to ASCII. -/
def isAlphaCh (c : Char) : Bool := isLowerAlpha c || isUpperAlpha c

/-- Model of Python `str.isalnum` restricted to ASCII. -/
def isAlnumCh (c : Char) : Bool := isAlphaCh c || isDigitCh c

/-- Characters that survive into a slug word: lower-case ASCII letters and digits. -/
def sChar (c : Char) : Bool := isLowerAlpha c || isDigitCh c

/-- Word characters for the regex class `\W` (ASCII model): alphanumerics and `_`. -/
def isWordCh (c : Char) : Bool := isAlnumCh c || c = '_'

/-- The Python 3 keyword list (`keyword.kwlist`). -/
def kwlist : List String :=
  ["False", "None", "True", "and", "as", "assert", "async", "await",
   "break", "class", "continue", "def", "del", "elif", "else", "except",
   "finally", "for", "from", "global", "if", "import", "in", "is",
   "lambda", "nonlocal", "not", "or", "pass", "raise", "return", "try",
   "while", "with", "yield"]

/-- Model of Python `keyword.iskeyword`. -/
def iskeyword (s : String) : Bool := kwlist.contains s

/-- Model of Python `str.isidentifier` (ASCII): nonempty, starts with a letter
or underscore, continues with letters, digits or underscores. -/
def isPyIdentifier (s : String) : Bool :=
  match s.data with
  | [] => false
  | c :: rest => (isAlphaCh c || c = '_') && rest.all (fun d => isAlnumCh d || d = '_')

/-- Accumulator pass of the slug word splitter: `acc` holds the current run of
slug characters in reverse; a non-slug character closes the run. -/
def slugWordsAux : List Char → List Char → List (List Char)
  | [], acc => if acc.isEmpty then [] else [acc.reverse]
  | c :: rest, acc =>
    if sChar c then slugWordsAux rest (c :: acc)
    else if acc.isEmpty then slugWordsAux rest [] else acc.reverse :: slugWordsAux rest []

/-- Maximal runs of slug characters of a string, in order. -/
def slugWords (l : List Char) : List (List Char) := slugWordsAux l []

/-- Join words with single underscores (the `separator='_'` of `slugify`). -/
def interU : List (List Char) → List Char
  | [] => []
  | [w] => w
  | w :: ws => w ++ '_' :: interU ws

/-- Model of `slugify(text, separator='_')` on character lists: lower-case, then
join the maximal `[a-z0-9]` runs with underscores. -/
def slugifyL (l : List Char) : List Char := interU (slugWords (l.map Char.toLower))

/-- Model of `slugify(input_string, separator='_')`. -/
def slugify (s : String) : String := String.mk (slugifyL s.data)

/-- The part of `str_to_py_identifier` after slugification: the `.replace('.', '_')`
(a no-op on slug output, kept for fidelity), the non-letter-start repair and the
keyword repair, before any case styling. -/
def sanStage2 (t0m : List Char) : List Char :=
  let t0 := t0m.map (fun c => if c = '.' then '_' else c)
  let t1 :=
    match t0 with
    | [] => '_' :: List.filter isAlnumCh t0
    | c :: _ => if !(isAlphaCh c) then '_' :: List.filter isAlnumCh t0 else t0
  if iskeyword (String.mk t1) then t1 ++ ['_'] else t1

/-- The sanitized (pre-case-styling) identifier computed by `str_to_py_identifier`. -/
def sanitizePart (s : String) : List Char := sanStage2 (slugifyL s.data)

/-- One step of `re.sub(r"([A-Z]+)([A-Z][a-z])", r'\1_\2', word)` from
`inflection.underscore`, as a character scan: an underscore is inserted between
two upper-case letters followed by a lower-case letter. -/
def underSub1 : List Char → List Char
  | a :: b :: c :: rest =>
    if isUpperAlpha a && isUpperAlpha b && isLowerAlpha c then
      a :: '_' :: underSub1 (b :: c :: rest)
    else a :: underSub1 (b :: c :: rest)
  | l => l

/-- One step of `re.sub(r"([a-z\d])([A-Z])", r'\1_\2', word)` from
`inflection.underscore`: an underscore is inserted between a lower-case letter
or digit and an upper-case letter. -/
def underSub2 : List Char → List Char
  | a :: b :: rest =>
    if (isLowerAlpha a || isDigitCh a) && isUpperAlpha b then
      a :: '_' :: underSub2 (b :: rest)
    else a :: underSub2 (b :: rest)
  | l => l

/-- Model of `inflection.underscore`: the two regex substitutions, then
`replace("-", "_")`, then `lower()`. -/
def underscoreL (l : List Char) : List Char :=
  ((underSub2 (underSub1 l)).map (fun c => if c = '-' then '_' else c)).map Char.toLower

/-- Tail scan of `re.sub(r"(?:^|_)(.)", lambda m: m.group(1).upper(), string)`
from `inflection.camelize`: an underscore followed by a character (other than a
newline, which `.` does not match) is replaced by that character upper-cased. -/
def camelTail : List Char → List Char
  | '_' :: c :: rest =>
    if c = '\n' then '_' :: camelTail (c :: rest) else c.toUpper :: camelTail rest
  | c :: rest => c :: camelTail rest
  | [] => []

/-- Model of `inflection.camelize(string)` (upper-case first letter). -/
def camelizeU : List Char → List Char
  | [] => []
  | c :: rest => c.toUpper :: camelTail rest

/-- Model of `inflection.camelize(string, False)`:
`string[0].lower() + camelize(string)[1:]`.  The empty case cannot be reached
from `str_to_py_identifier` (the sanitized string is never empty). -/
def camelizeF : List Char → List Char
  | [] => []
  | c :: rest => c.toLower :: camelTail rest

/-- Model of Python `str.capitalize`: first character upper-cased, the rest
lower-cased. -/
def capitalizeW : List Char → List Char
  | [] => []
  | c :: rest => c.toUpper :: rest.map Char.toLower

/-- Model of Python `str.split('_')`: split at every underscore, keeping empty
pieces. -/
def splitU : List Char → List (List Char)
  | [] => [[]]
  | c :: rest =>
    if c = '_' then [] :: splitU rest
    else
      match splitU rest with
      | w :: ws => (c :: w) :: ws
      | [] => [[c]]

/-- The four case styles accepted by `str_to_py_identifier`. -/
inductive CaseType
  | snake
  | camel
  | title
  | const
deriving DecidableEq, Repr

/-- Model of `str_to_py_identifier` from `src/sanitize_column_name.py` (also
duplicated in `src/utils.py`): slugify, repair a missing leading letter, guard
against keywords, then apply the requested case style.  The Python `is_related`
keyword parameter is unused by the source and omitted here. -/
def str_to_py_identifier (input_string : String) (case_type : CaseType) : String :=
  let t := sanitizePart input_string
  match case_type with
  | .snake => String.mk (underscoreL t)
  | .camel => String.mk (camelizeF t)
  | .title =>
    String.mk ((if t.headD ' ' = '_' then ['_'] else []) ++ (splitU t).flatMap capitalizeW)
  | .const => String.mk ((underscoreL t).map Char.toUpper)

/-- `re.subn(r'\W', '_', l)`: replace every non-word character by `_`,
returning the replacement count. -/
def subnW (l : List Char) : List Char × Nat :=
  l.foldr
    (fun c acc => if isWordCh c then (c :: acc.1, acc.2) else ('_' :: acc.1, acc.2 + 1))
    ([], 0)

/-- Model of `normalize_col_name` from `src/sanitize_column_name.py` (also
duplicated in `src/utils.py`).  Returns `none` exactly where the Python code
raises `IndexError`: the subscript `new_name[0]` on an empty intermediate name.
Note strings match the source (apostrophes written as `\x27`). -/
def normalize_col_name (col_name : String) (is_related : Bool) :
    Option (String × List (String × String) × List String) :=
  let new0 := col_name.data.map Char.toLower
  let notes0 : List String :=
    if new0 ≠ col_name.data then ["Field name made lowercase."] else []
  let new1 :=
    if is_related && (List.isSuffixOf ['_', 'i', 'd'] col_name.data) then
      new0.take (new0.length - 3)
    else new0
  let rep := subnW new1
  let notes1 := notes0 ++
    (if rep.2 > 0 then
      ["Field renamed to remove nonalphanumerics and replace them with underscores."]
     else [])
  let step3 :=
    if rep.1.headD ' ' = '_' then
      ('a' :: 't' :: 't' :: 'r' :: rep.1,
       notes1 ++ ["Field renamed because it started with \x27_\x27."])
    else (rep.1, notes1)
  let step4 :=
    if step3.1.getLast? = some '_' then
      (step3.1 ++ ['a', 't', 't', 'r'],
       step3.2 ++ ["Field renamed because it ended with \x27_\x27."])
    else step3
  match step4.1 with
  | [] => none
  | c0 :: _ =>
    let step5 :=
      if isDigitCh c0 then
        ('n' :: 'u' :: 'm' :: 'b' :: 'e' :: 'r' :: '_' :: step4.1,
         step4.2 ++ ["Field renamed because it wasn\x27t a valid Python identifier."])
      else step4
    let step6 :=
      if iskeyword (String.mk step5.1) then
        (step5.1 ++ ['_', 'a', 't', 't', 'r'],
         step5.2 ++ ["Field renamed because it was a Python reserved word."])
      else step5
    let step7 :=
      if !(isPyIdentifier (String.mk step6.1)) then
        (step6.1 ++ ['_', 'a', 't', 't', 'r'],
         step6.2 ++ ["Field renamed to ensure it is a valid Python identifier."])
      else step6
    let params : List (String × String) :=
      if col_name ≠ String.mk step7.1 then [("column", col_name)] else []
    some (String.mk step7.1, params, step7.2)

/-- Type codes handed to the adapters: integers (postgres, mysql) or strings (sqlite). -/
inductive TypeCode
  | int (n : Int)
  | str (s : String)
deriving DecidableEq, Repr

/-- Python exceptions that the embedded code can raise. -/
inductive PyError
  | keyError
  | assertionError
  | indexError
  | valueError
deriving DecidableEq, Repr

/-- Values appearing as field keyword parameters (`repr`-rendered in output). -/
inductive PyVal
  | int (n : Int)
  | bool (b : Bool)
  | str (s : String)
deriving DecidableEq, Repr

/-- Model of Python `repr` on the values above. -/
def pyRepr : PyVal → String
  | .int n => toString n
  | .bool b => if b then "True" else "False"
  | .str s => "\x27" ++ s ++ "\x27"

/-- Embedding of `base.FieldInfo` (the fields the core pipeline reads). -/
structure FieldInfo where
  name : String
  type_code : TypeCode
  internal_size : Option Int
  precision : Option Int
  scale : Option Int
  null_ok : Bool
  default : Option String
deriving DecidableEq, Repr

/-- Dictionary lookup on an insertion-ordered association list. -/
def lookupKV {α : Type} (l : List (String × α)) (k : String) : Option α :=
  (l.find? (fun p => p.1 = k)).map (·.2)

/-- Python `d[k] = v` on an insertion-ordered association list: overwrite in
place when the key exists, append otherwise. -/
def setKV {α : Type} (l : List (String × α)) (k : String) (v : α) : List (String × α) :=
  if (l.find? (fun p => p.1 = k)).isSome then
    l.map (fun p => if p.1 = k then (k, v) else p)
  else l ++ [(k, v)]

/-- Python `d.update(m)` on association lists. -/
def updateKV {α : Type} (l m : List (String × α)) : List (String × α) :=
  m.foldl (fun acc p => setKV acc p.1 p.2) l

/-- Does `needle` occur as a contiguous subsequence of the second list? -/
def containsSeq (needle : List Char) : List Char → Bool
  | [] => needle.isEmpty
  | c :: rest => needle.isPrefixOf (c :: rest) || containsSeq needle rest

/-- Python `needle in hay` on strings. -/
def strContains (hay needle : String) : Bool := containsSeq needle.data hay.data

/-- The condition `description.default and 'nextval' in description.default`. -/
def defaultHasNextval (d : Option String) : Bool :=
  match d with
  | none => false
  | some s => s ≠ "" && strContains s "nextval"

/-- Python `str.lower` (ASCII model). -/
def lowerStr (s : String) : String := String.mk (s.data.map Char.toLower)

/-- Python `str(data_type)` on a type code. -/
def typeCodeStr : TypeCode → String
  | .str s => s
  | .int n => toString n

/-- Drop leading whitespace (`\s*`). -/
def dropWs (l : List Char) : List Char := l.dropWhile Char.isWhitespace

/-- Strip an exact literal from the front, or fail. -/
def stripLit : List Char → List Char → Option (List Char)
  | [], l => some l
  | c :: cs, d :: ds => if c = d then stripLit cs ds else none
  | _ :: _, [] => none

/-- Parse a nonempty digit run (`(\d+)`), returning its value and the rest. -/
def parseDigits (l : List Char) : Option (Nat × List Char) :=
  let ds := l.takeWhile isDigitCh
  if ds.isEmpty then none
  else some (ds.foldl (fun n c => n * 10 + (c.toNat - 48)) 0, l.dropWhile isDigitCh)

/-- Model of `sqlite.get_field_size`: the regex
`^\s*(?:var)?char\s*\(\s*(\d+)\s*\)\s*$` as a parser. -/
def get_field_size (name : String) : Option Nat := do
  let l0 := dropWs name.data
  let l1 := (stripLit ['v', 'a', 'r'] l0).getD l0
  let l2 ← stripLit ['c', 'h', 'a', 'r'] l1
  let l3 ← (do pure (dropWs l2))
  let l4 ← stripLit ['('] l3
  let (n, l5) ← parseDigits (dropWs l4)
  let l6 ← stripLit [')'] (dropWs l5)
  if (dropWs l6).isEmpty then some n else none

/-- `sqlite.Introspection.data_types_reverse`. -/
def sqliteTypes : List (String × String) :=
  [("bool", "bool"), ("boolean", "bool"), ("smallint", "int"),
   ("smallint unsigned", "int"), ("smallinteger", "int"), ("int", "int"),
   ("integer", "int"), ("bigint", "int"), ("integer unsigned", "int"),
   ("decimal", "Decimal"), ("real", "float"), ("text", "LongStr"),
   ("char", "str"), ("blob", "buffer"), ("date", "date"),
   ("datetime", "datetime"), ("time", "time")]

/-- `sqlite.Introspection.imports`. -/
def sqliteImports : List (String × String) :=
  [("LongStr", "from pony.orm.ormtypes import LongStr"),
   ("datetime", "from datetime import datetime"),
   ("time", "from datetime import time"),
   ("date", "from datetime import date"),
   ("Decimal", "from decimal import Decimal"),
   ("buffer", "from pony.py23compat import buffer")]

/-- The adapter-level `get_field_type` interface: type code and column
description to (field type, extra parameters, required import). -/
def AdapterFT : Type :=
  TypeCode → FieldInfo → Except PyError (String × Option (List (String × PyVal)) × Option String)

/-- Embedding of `sqlite.Introspection.get_field_type`: unknown type codes are
handled inside the adapter (never re-raised as `KeyError`): a `varchar(n)`-shaped
code falls back to `str` with `max_len`, any other unknown code fails the
`assert size is not None` with an `AssertionError`. -/
def sqlite_get_field_type : AdapterFT := fun data_type description =>
  let dt := lowerStr (typeCodeStr data_type)
  let found : Except PyError (String × Option (List (String × PyVal))) :=
    match lookupKV sqliteTypes dt with
    | some ft => .ok (ft, none)
    | none =>
      match get_field_size dt with
      | none => .error .assertionError
      | some size => .ok ("str", some [("max_len", .int size)])
  match found with
  | .error e => .error e
  | .ok (field_type, opts) =>
    let imp := lookupKV sqliteImports field_type
    if defaultHasNextval description.default && field_type = "int" then .ok ("AUTO", opts, imp)
    else .ok (field_type, opts, imp)

/-- `postgres.Introspection.data_types_reverse`. -/
def pgTypes : List (Int × String) :=
  [(16, "bool"), (17, "buffer"), (20, "int"), (21, "int"), (23, "int"),
   (25, "str"), (700, "float"), (701, "float"), (869, "str"), (1042, "str"),
   (1043, "str"), (1082, "date"), (1083, "time"), (1114, "datetime"),
   (1184, "datetime"), (1266, "time"), (1700, "Decimal"), (2950, "UUID")]

/-- `postgres.Introspection.imports`. -/
def pgImports : List (String × String) :=
  [("UUID", "from uuid import UUID"),
   ("LongStr", "from pony.orm.ormtypes import LongStr"),
   ("datetime", "from datetime import datetime"),
   ("time", "from datetime import time"),
   ("date", "from datetime import date"),
   ("Decimal", "from decimal import Decimal")]

/-- Lookup in an integer-keyed type map. -/
def lookupInt (l : List (Int × String)) (k : Int) : Option String :=
  (l.find? (fun p => p.1 = k)).map (·.2)

/-- Python `int(data_type)`: identity on ints, decimal parse on strings
(`ValueError` otherwise). -/
def pyIntOf : TypeCode → Except PyError Int
  | .int n => .ok n
  | .str s =>
    let l := dropWs s.data
    let core := if (dropWs l.reverse).reverse.isEmpty then l else (dropWs l.reverse).reverse
    let signed : Bool × List Char :=
      match core with
      | '-' :: rest => (true, rest)
      | '+' :: rest => (false, rest)
      | rest => (false, rest)
    if signed.2.isEmpty || !(signed.2.all isDigitCh) then .error .valueError
    else
      let v : Int := Int.ofNat (signed.2.foldl (fun n c => n * 10 + (c.toNat - 48)) 0)
      .ok (if signed.1 then -v else v)

/-- Embedding of `postgres.Introspection.get_field_type`: an unrecognized type
code raises `KeyError` to the caller. -/
def postgres_get_field_type : AdapterFT := fun data_type description =>
  match pyIntOf data_type with
  | .error e => .error e
  | .ok n =>
    match lookupInt pgTypes n with
    | none => .error .keyError
    | some field_type =>
      let imp := lookupKV pgImports field_type
      if defaultHasNextval description.default && field_type = "int" then .ok ("AUTO", none, imp)
      else .ok (field_type, none, imp)

/-- `mysql.Introspection.data_types_reverse`, with the `MySQLdb.constants.FIELD_TYPE`
codes substituted.  `FIELD_TYPE.CHAR` and `FIELD_TYPE.TINY` are both `1`, so in
the Python dict literal the later `TINY: 'int'` entry overwrites `CHAR: 'str'`. -/
def mysqlTypes : List (Int × String) :=
  [(252, "buffer"), (1, "int"), (0, "Decimal"), (246, "Decimal"), (10, "date"),
   (12, "datetime"), (5, "float"), (4, "float"), (9, "int"), (3, "int"),
   (8, "int"), (2, "int"), (254, "str"), (11, "time"), (7, "time"),
   (249, "str"), (250, "str"), (251, "str"), (253, "str")]

/-- `mysql.Introspection.imports`. -/
def mysqlImports : List (String × String) :=
  [("LongStr", "from pony.orm.ormtypes import LongStr"),
   ("datetime", "from datetime import datetime"),
   ("time", "from datetime import time"),
   ("date", "from datetime import date"),
   ("Decimal", "from decimal import Decimal")]

/-- Embedding of `mysql.Introspection.get_field_type`. -/
def mysql_get_field_type : AdapterFT := fun data_type description =>
  match pyIntOf data_type with
  | .error e => .error e
  | .ok n =>
    match lookupInt mysqlTypes n with
    | none => .error .keyError
    | some field_type =>
      let imp := lookupKV mysqlImports field_type
      if defaultHasNextval description.default && field_type = "int" then .ok ("AUTO", none, imp)
      else .ok (field_type, none, imp)

/-- Python `set.add` on an insertion-ordered list model of `Command.imports`. -/
def addImport (imports : List String) (i : String) : List String :=
  if imports.contains i then imports else imports ++ [i]

/-- The class-level initial value of `Command.imports`. -/
def initialImports : List String := ["from pony.orm import *"]

/-- The `if _import: self.imports.add(_import)` step of `Command.get_field_type`. -/
def importsAfter (imports : List String) (imp : Option String) : List String :=
  match imp with
  | some i => if i ≠ "" then addImport imports i else imports
  | none => imports

/-- Embedding of `Command.get_field_type` (`src/cli.py`): call the adapter,
catch `KeyError` only (falling back to `LongStr` plus the guess note), add the
required import to the shared `imports` set, then post-process `str` sizes and
`Decimal` precision/scale.  Returns the field type, parameters, notes, and the
updated imports set. -/
def cliGetFieldType (adapter : AdapterFT) (imports : List String) (row : FieldInfo) :
    Except PyError (String × List (String × PyVal) × List String × List String) :=
  let caught : Except PyError (String × Option (List (String × PyVal)) × Option String × List String) :=
    match adapter row.type_code row with
    | .error .keyError =>
      .ok ("LongStr", none, some "from pony.orm.ormtypes import LongStr",
           ["This field type is a guess."])
    | .error e => .error e
    | .ok (ft, opts, imp) => .ok (ft, opts, imp, [])
  match caught with
  | .error e => .error e
  | .ok (field_type, opts, imp, notes0) =>
    let imports1 := importsAfter imports imp
    let params0 : List (String × PyVal) := match opts with | some o => o | none => []
    let params1 :=
      if field_type = "str" then
        match row.internal_size with
        | some isz =>
          if isz ≠ 0 && isz ≠ -1 then updateKV params0 [("max_len", .int isz)] else params0
        | none => params0
      else params0
    if field_type = "Decimal" then
      match row.precision, row.scale with
      | some p, some s =>
        .ok (field_type, updateKV params1 [("precision", .int p), ("scale", .int s)], notes0, imports1)
      | p?, s? =>
        .ok (field_type,
             updateKV params1 [("precision", .int (p?.getD 10)), ("scale", .int (s?.getD 5))],
             notes0 ++
               ["scale and precision have been guessed, as this database handles decimal fields as float"],
             imports1)
    else .ok (field_type, params1, notes0, imports1)

/-- Embedding of `cli.TRelAttr`: a synthesized relationship attribute. -/
structure RelAttr where
  name : String
  table : String
  cls : String
  reverse : String
  kwargs : List (String × String)
deriving DecidableEq, Repr

/-- Embedding of `base.ColumnInfo`: one constraint or index descriptor. -/
structure ColumnInfoC where
  columns : List String
  primary_key : Bool
  unique : Bool
  check : Bool
  index : Bool
deriving DecidableEq, Repr

/-- The adapter answers for one table (inputs to the aggregator): `get_relations`
as an ordered map column to (referenced column, referenced table),
`get_constraints`, and `get_table_description`. -/
structure TableData where
  relations : List (String × String × String)
  constraints : List (String × ColumnInfoC)
  description : List FieldInfo
deriving Repr

/-- Embedding of `cli.TIntrospection`: the per-table aggregation record. -/
structure TIntro where
  relations : List (String × String × String)
  rel_attrs : List RelAttr
  description : List FieldInfo
  unique_columns : List String
  primary_key_columns : List String
  constraints : List (String × ColumnInfoC)
deriving DecidableEq, Repr

/-- The defaultdict default value of `_make_introspection`. -/
def emptyTIntro : TIntro := ⟨[], [], [], [], [], []⟩

/-- Embedding of `base.Introspection.get_primary_key_columns`: the column list
of the first constraint flagged as primary key, else empty. -/
def get_primary_key_columns (constraints : List (String × ColumnInfoC)) : List String :=
  match constraints.find? (fun p => p.2.primary_key) with
  | some p => p.2.columns
  | none => []

/-- The `unique_columns` chain of `_make_introspection` line 100. -/
def uniqueColumnsOf (constraints : List (String × ColumnInfoC)) : List String :=
  (constraints.filter (fun p => p.2.unique)).flatMap (fun p => p.2.columns)

/-- Lookup of a column in the relations map. -/
def relFind (rels : List (String × String × String)) (c : String) : Option (String × String) :=
  (rels.find? (fun p => p.1 = c)).map (·.2)

/-- The two counter dictionaries (`field_counters`, `relations_counters`) as
total functions from keys to counts (`defaultdict(int)`). -/
abbrev Ctr : Type := (String × String) → Nat

/-- `d[k] += 1` on a counter. -/
def bump (f : Ctr) (k : String × String) : Ctr :=
  fun x => if x = k then f x + 1 else f x

/-- The numeric suffix `f"{counters[...] or ''}"`: empty for zero. -/
def sfx (n : Nat) : String := if n = 0 then "" else toString n

/-- The mutable state of one `Command` instance during aggregation. -/
structure AggState where
  counters : Ctr
  rel_counters : Ctr
  ret : List (String × TIntro)

/-- Is a key present in the (insertion-ordered) `ret` defaultdict? -/
def retHas (ret : List (String × TIntro)) (k : String) : Bool := ret.any (fun p => p.1 = k)

/-- `ret[k]` access on a defaultdict: create the entry at the end if missing. -/
def retGetCreate (ret : List (String × TIntro)) (k : String) : List (String × TIntro) :=
  if retHas ret k then ret else ret ++ [(k, emptyTIntro)]

/-- `ret[k]` access followed by an in-place modification. -/
def retModify (ret : List (String × TIntro)) (k : String) (f : TIntro → TIntro) :
    List (String × TIntro) :=
  (retGetCreate ret k).map (fun p => if p.1 = k then (p.1, f p.2) else p)

/-- Read access without defaultdict creation (used in statements only). -/
def retLookup (ret : List (String × TIntro)) (k : String) : Option TIntro :=
  (ret.find? (fun p => p.1 = k)).map (·.2)

/-- `ret[k]['rel_attrs'].append(a)`. -/
def retAppendAttr (ret : List (String × TIntro)) (k : String) (a : RelAttr) :
    List (String × TIntro) :=
  retModify ret k (fun t => {t with rel_attrs := t.rel_attrs ++ [a]})

/-- Embedding of the field-name normalization loop of `_make_introspection`
(cli.py lines 102-108): for every column not in `relations`, normalize the name,
append the current count for `(table, normalized)` as a suffix (empty for zero),
then increment the counter keyed by the **suffixed** name. -/
def normalizeFields (table_name : String) (rels : List (String × String × String)) (c : Ctr) :
    List FieldInfo → Except PyError (List FieldInfo × Ctr)
  | [] => .ok ([], c)
  | f :: fs =>
    if (relFind rels f.name).isSome then
      match normalizeFields table_name rels c fs with
      | .ok (fs2, c2) => .ok (f :: fs2, c2)
      | .error e => .error e
    else
      match normalize_col_name f.name false with
      | none => .error .indexError
      | some (nn, _, _) =>
        let k := c (table_name, nn)
        let nn2 := nn ++ sfx k
        let c1 := bump c (table_name, nn2)
        match normalizeFields table_name rels c1 fs with
        | .ok (fs2, c2) => .ok ({f with name := nn2} :: fs2, c2)
        | .error e => .error e

/-- Embedding of the junction-detection loop of `_make_introspection` (cli.py
lines 110-122): walk the (already normalized) columns; a non-relation column
that is a primary-key column is skipped, any other non-relation column breaks
the loop (`none`); otherwise collect (referenced table, local field). -/
def collectRelated (rels : List (String × String × String)) (pks : List String) :
    List FieldInfo → Option (List (String × String))
  | [] => some []
  | f :: fs =>
    match relFind rels f.name with
    | none => if pks.contains f.name then collectRelated rels pks fs else none
    | some pr => (collectRelated rels pks fs).map (fun l => (pr.2, f.name) :: l)

/-- Embedding of the per-relation attribute synthesis of `_make_introspection`
(cli.py lines 139-154): for each foreign-key column, build the forward to-one
attribute (suffix from the `(table, normalized name)` counter, bumped on the
base name) and the reverse to-many attribute (name from the lower-cased owner
plus `_set` plus the `(referenced table, lowered owner)` counter), append both,
and bump both directions of the relation-edge counters. -/
def processRelations (table_name : String) (st : AggState) :
    List (String × String × String) → Except PyError AggState
  | [] => .ok st
  | (column_name, _attr, ref_table) :: rest =>
    match normalize_col_name column_name true with
    | none => .error .indexError
    | some (att0, kwargs, _notes) =>
      let i := st.counters (table_name, att0)
      let c1 := bump st.counters (table_name, att0)
      let att_name := att0 ++ sfx i
      let ret1 := retGetCreate st.ret table_name
      let reverse0 := lowerStr table_name
      let j := c1 (ref_table, reverse0)
      let c2 := bump c1 (ref_table, reverse0)
      let reverse1 := reverse0 ++ "_set" ++ sfx j
      let ret2 := retAppendAttr ret1 table_name ⟨att_name, ref_table, "Required", reverse1, kwargs⟩
      let rc1 := bump st.rel_counters (table_name, ref_table)
      let ret3 := retAppendAttr ret2 ref_table ⟨reverse1, table_name, "Set", att_name, []⟩
      let rc2 := bump rc1 (ref_table, table_name)
      processRelations table_name ⟨c2, rc2, ret3⟩ rest

/-- Embedding of the junction branch of `_make_introspection` (cli.py lines
123-137): `this, other = related_tables` (a `ValueError` unless the list has
exactly two entries), the `_set`-suffixed attribute names built from the raw
local column names with counter suffixes, the two hoisted to-many attributes,
and the two edge-counter increments. -/
def processM2M (st : AggState) (c1 : Ctr) :
    List (String × String) → Except PyError AggState
  | [(tA, fA), (tB, fB)] =>
    let fA2 := fA ++ "_set" ++ sfx (c1 (tB, fA))
    let fB2 := fB ++ "_set" ++ sfx (c1 (tA, fB))
    let c2 := bump c1 (tA, fB)
    let c3 := bump c2 (tB, fA)
    let ret1 := retAppendAttr st.ret tA ⟨fB2, tB, "Set", fA2, []⟩
    let rc1 := bump st.rel_counters (tA, tB)
    let ret2 := retAppendAttr ret1 tB ⟨fA2, tA, "Set", fB2, []⟩
    let rc2 := bump rc1 (tB, tA)
    .ok ⟨c3, rc2, ret2⟩
  | _ => .error .valueError

/-- `Command.is_pony_table`. -/
def is_pony_table (t : String) : Bool := t = "migration" || t = "pony_version"

/-- Embedding of the body of `_make_introspection` for one table (cli.py lines
84-160): skip pony bookkeeping tables; fetch the adapter data; normalize field
names; classify as a many-to-many junction (every column either a relation or a
primary-key column, and exactly two distinct referenced tables); in the junction
case hoist one to-many attribute onto each referenced table (names built from
the **raw** local column names plus `_set` plus a counter suffix) and store
nothing for the junction itself; otherwise synthesize forward/reverse attribute
pairs per relation and store the table record. -/
def processTable (data : String → TableData) (st : AggState) (table_name : String) :
    Except PyError AggState :=
  if is_pony_table table_name then .ok st
  else
    let td := data table_name
    let relations := td.relations
    let constraints := td.constraints
    let primary_key_columns := get_primary_key_columns constraints
    let unique_columns := uniqueColumnsOf constraints
    match normalizeFields table_name relations st.counters td.description with
    | .error e => .error e
    | .ok (table_description, c1) =>
      let rts? := collectRelated relations primary_key_columns table_description
      let is_m2m :=
        match rts? with
        | none => false
        | some rts => ((rts.map Prod.fst).eraseDups).length = 2
      if is_m2m then
        match rts? with
        | some rts => processM2M st c1 rts
        | none => .error .valueError
      else
        match processRelations table_name ⟨c1, st.rel_counters, st.ret⟩ relations with
        | .error e => .error e
        | .ok st2 =>
          let ret2 := retModify st2.ret table_name
            (fun t => {t with relations := relations,
                              description := table_description,
                              unique_columns := unique_columns,
                              primary_key_columns := primary_key_columns,
                              constraints := constraints})
          .ok ⟨st2.counters, st2.rel_counters, ret2⟩

/-- Fold of `processTable` over the introspected table list. -/
def aggTables (data : String → TableData) (st : AggState) :
    List String → Except PyError AggState
  | [] => .ok st
  | t :: ts =>
    match processTable data st t with
    | .error e => .error e
    | .ok st1 => aggTables data st1 ts

/-- Fresh per-instance state: both `cached_property` counters start at zero and
`ret` is an empty defaultdict. -/
def initAggState : AggState := ⟨fun _ => 0, fun _ => 0, []⟩

/-- Embedding of `Command._make_introspection` given the adapter data and the
sorted table list. -/
def make_introspection (data : String → TableData) (tables : List String) :
    Except PyError AggState :=
  aggTables data initAggState tables

/-- Embedding of `Command.table2model`: `re.sub(r'[^a-zA-Z0-9]', '', table_name.title())`.
Python `str.title` upper-cases a cased character after a non-letter and
lower-cases the rest. -/
def pyTitleAux : Bool → List Char → List Char
  | _, [] => []
  | prevAlpha, c :: rest =>
    (if prevAlpha then c.toLower else c.toUpper) :: pyTitleAux (isAlphaCh c) rest

/-- `Command.table2model`. -/
def table2model (table_name : String) : String :=
  String.mk ((pyTitleAux false table_name.data).filter isAlnumCh)

/-- `Command.KWARGS_ORDER`. -/
def KWARGS_ORDER : List String := ["unique", "nullable", "default", "column"]

/-- The `sort_key` of `_get_output`: position in `KWARGS_ORDER`, or the length
of the kwargs dict for keys not listed. -/
def kwSortKey (fkLen : Nat) (p : String × PyVal) : Nat :=
  match KWARGS_ORDER.findIdx? (fun k => k = p.1) with
  | some i => i
  | none => fkLen

/-- Stable insertion of one element into a key-sorted list (ties keep earlier
elements first, matching Python's stable `sorted`). -/
def insertByKey (key : String × PyVal → Nat) (x : String × PyVal) :
    List (String × PyVal) → List (String × PyVal)
  | [] => [x]
  | y :: ys => if key y ≤ key x then y :: insertByKey key x ys else x :: y :: ys

/-- Stable sort by key (model of Python `sorted(l, key=...)`). -/
def sortByKey (key : String × PyVal → Nat) (l : List (String × PyVal)) :
    List (String × PyVal) :=
  l.foldl (fun acc x => insertByKey key x acc) []

/-- Truthiness of `extra_params.get(k)` in the container-kind decision. -/
def truthyKV (l : List (String × PyVal)) (k : String) : Bool :=
  match lookupKV l k with
  | some (.bool b) => b
  | some (.int n) => n ≠ 0
  | some (.str s) => s ≠ ""
  | none => false

/-- Embedding of the per-column field emission of `_get_output` (cli.py lines
182-230).  Returns the optional emitted line (`none` both for the implicit-PK
elision and for relation columns, which yield no field line), the updated
imports set, and the `column_to_field_name` entry. -/
def emitFieldRow (adapter : AdapterFT) (imports : List String)
    (relations : List (String × String × String)) (pks uniques : List String)
    (row : FieldInfo) :
    Except PyError (Option String × List String × (String × String)) :=
  let column_name := row.name
  let att_name := row.name
  let extra0 : List (String × PyVal) :=
    if pks = [column_name] then [("primary_key", .bool true)] else []
  let field_kwargs0 : List (String × PyVal) :=
    if pks ≠ [column_name] ∧ uniques.contains column_name then [("unique", .bool true)]
    else []
  let is_relation := (relFind relations column_name).isSome
  match cliGetFieldType adapter imports row with
  | .error e => .error e
  | .ok (field_type, field_params, field_notes, imports1) =>
    let extra1 := if is_relation then extra0 else updateKV extra0 field_params
    let field_kwargs1 :=
      if is_relation then field_kwargs0 else updateKV field_kwargs0 field_params
    let comment_notes := if is_relation then ([] : List String) else field_notes
    if att_name = "id" ∧ extra1 = [("primary_key", .bool true)] ∧ field_type = "AUTO" then
      .ok (none, imports1, (column_name, att_name))
    else
      let extra2 := if row.null_ok then updateKV extra1 [("null", .bool true)] else extra1
      let sorted_kwargs := sortByKey (kwSortKey field_kwargs1.length) field_kwargs1
      let ks := String.intercalate ", "
        (sorted_kwargs.map (fun p => p.1 ++ "=" ++ pyRepr p.2))
      let ks := if ks = "" then "" else ", " ++ ks
      if is_relation then .ok (none, imports1, (column_name, att_name))
      else
        let cls :=
          if truthyKV extra2 "primary_key" then "PrimaryKey"
          else if truthyKV extra2 "null" then "Optional"
          else "Required"
        let line := "    " ++ att_name ++ " = " ++ cls ++ "(" ++ field_type ++ ks ++ ")" ++
          (if comment_notes ≠ [] then "  # " ++ String.intercalate " " comment_notes else "")
        .ok (some line, imports1, (column_name, att_name))

/-- Fold of `emitFieldRow` over a table description, accumulating lines, the
imports set and the `column_to_field_name` map. -/
def emitRows (adapter : AdapterFT) (imports : List String)
    (relations : List (String × String × String)) (pks uniques : List String) :
    List FieldInfo → Except PyError (List String × List String × List (String × String))
  | [] => .ok ([], imports, [])
  | row :: rest =>
    match emitFieldRow adapter imports relations pks uniques row with
    | .error e => .error e
    | .ok (line?, imports1, pair) =>
      match emitRows adapter imports1 relations pks uniques rest with
      | .error e => .error e
      | .ok (lines, imports2, c2f) => .ok (line?.toList ++ lines, imports2, pair :: c2f)

/-- Embedding of the relationship-attribute kwargs logic of `_get_output`
(cli.py lines 234-236): attach `reverse=<reverse name>` exactly when the
relation-edge counter between the owning table and the attribute's target
exceeds one. -/
def relAttrKwargs (rc : Ctr) (table_name : String) (attr : RelAttr) :
    List (String × String) :=
  if rc (table_name, attr.table) > 1 then setKV attr.kwargs "reverse" attr.reverse
  else attr.kwargs

/-- The emitted relationship declaration line (cli.py lines 232-240). -/
def relAttrLine (rc : Ctr) (table_name : String) (attr : RelAttr) : String :=
  let model := table2model attr.table
  let kwargs := relAttrKwargs rc table_name attr
  let ks := String.intercalate ", "
    (kwargs.map (fun p => p.1 ++ "=" ++ "\x27" ++ p.2 ++ "\x27"))
  let ks := if ks = "" then "" else ", " ++ ks
  "    " ++ attr.name ++ " = " ++ attr.cls ++ "(\"" ++ model ++ "\"" ++ ks ++ ")"

/-- `column_to_field_name[c]` lookups for the compound primary key line
(`KeyError` when a primary-key column has no emitted mapping). -/
def lookupAllC2F (c2f : List (String × String)) :
    List String → Except PyError (List String)
  | [] => .ok []
  | c :: cs =>
    match lookupKV c2f c with
    | none => .error .keyError
    | some v =>
      match lookupAllC2F c2f cs with
      | .error e => .error e
      | .ok vs => .ok (v :: vs)

/-- Embedding of one table's output block in `_get_output` (cli.py lines
174-244): two blank lines, the class and `_table_` lines, the field lines, the
relationship lines, and the compound primary key line when the table has more
than one primary-key column. -/
def emitTable (adapter : AdapterFT) (rc : Ctr) (imports : List String)
    (table_name : String) (data : TIntro) :
    Except PyError (List String × List String) :=
  let model := table2model table_name
  let head := ["", "", "class " ++ model ++ "(db.Entity):",
               "    _table_ = \"" ++ table_name ++ "\""]
  match emitRows adapter imports data.relations data.primary_key_columns
      data.unique_columns data.description with
  | .error e => .error e
  | .ok (flines, imports1, c2f) =>
    let rlines := data.rel_attrs.map (relAttrLine rc table_name)
    if data.primary_key_columns.length > 1 then
      match lookupAllC2F c2f data.primary_key_columns with
      | .error e => .error e
      | .ok attrs =>
        .ok (head ++ flines ++ rlines ++
             ["    PrimaryKey(" ++ String.intercalate ", " attrs ++ ")"], imports1)
    else .ok (head ++ flines ++ rlines, imports1)

/-- Fold of `emitTable` over the aggregated tables, in `ret` insertion order. -/
def emitTablesFold (adapter : AdapterFT) (rc : Ctr) (imports : List String) :
    List (String × TIntro) → Except PyError (List String × List String)
  | [] => .ok ([], imports)
  | (t, d) :: rest =>
    match emitTable adapter rc imports t d with
    | .error e => .error e
    | .ok (lines, imports1) =>
      match emitTablesFold adapter rc imports1 rest with
      | .error e => .error e
      | .ok (lines2, imports2) => .ok (lines ++ lines2, imports2)

/-- Embedding of `Command.get_output`: run `_get_output` to completion (which
fills the imports set), then yield the header comment, a blank line, the
imports, a blank line, and the collected lines starting with `db = Database()`. -/
def getOutput (adapter : AdapterFT) (rc : Ctr) (imports0 : List String)
    (ret : List (String × TIntro)) : Except PyError (List String × List String) :=
  match emitTablesFold adapter rc imports0 ret with
  | .error e => .error e
  | .ok (lines, imports1) =>
    .ok (["# This is an auto-generated module with pony entities.", ""] ++ imports1 ++
         [""] ++ ("db = Database()" :: lines), imports1)

/-- One full pipeline invocation: a fresh `Command` instance (fresh counter
dictionaries), but the class-level `imports` set passed in and returned, since
it is shared by every `Command` in the process. -/
def runPipeline (adapter : AdapterFT) (data : String → TableData) (tables : List String)
    (imports0 : List String) : Except PyError (List String × List String) :=
  match make_introspection data tables with
  | .error e => .error e
  | .ok st => getOutput adapter st.rel_counters imports0 st.ret

deriving instance DecidableEq for Except

/-- Characters that can occur in a sanitized identifier before case styling:
slug characters and the underscore. -/
def goodChar (c : Char) : Bool := sChar c || c = '_'

/-- Shorthand for building a concrete `FieldInfo`. -/
def fiOf (n : String) (tc : TypeCode) (dflt : Option String) (nl : Bool) : FieldInfo :=
  ⟨n, tc, none, none, none, nl, dflt⟩

/-- A primary-key constraint over the given columns. -/
def pkConstraint (cols : List String) : ColumnInfoC := ⟨cols, true, false, false, false⟩

/-- The normalized base name a column contributes to the field-name counter
(the first component of `normalize_col_name`, with a dummy for the error case). -/
def baseNameOf (n : String) : String :=
  match normalize_col_name n false with
  | some (nn, _, _) => nn
  | none => ""

/-- The normalized base names of a table description, in order. -/
def basesOf (fields : List FieldInfo) : List String :=
  fields.map (fun f => baseNameOf f.name)

/-- The field names emitted by the normalization loop for a table with no
relations, starting from fresh counters. -/
def normalizedNames (t : String) (fields : List FieldInfo) : List String :=
  match normalizeFields t [] (fun _ => 0) fields with
  | .ok (fs, _) => fs.map (fun f => f.name)
  | .error _ => []

/-- Recurrence satisfied by the emitted names: each name is its base plus the
count of earlier **emitted** names equal to that base (empty suffix for zero).
Used as a proof-side description of `normalizeFields`. -/
def emitSpec (done : List String) : List String → List String
  | [] => []
  | b :: bs =>
    let e := b ++ sfx (done.count b)
    e :: emitSpec (done ++ [e]) bs

/-- Closed form of `emitSpec` from fresh counters: the first occurrence of a
base is unsuffixed, every later occurrence gets the suffix `1`. -/
def mixNames (seen : List String) : List String → List String
  | [] => []
  | b :: bs => (if seen.contains b then b ++ "1" else b) :: mixNames (b :: seen) bs

/-- The three-column table of the C1 counterexample: all three names normalize
to the base `name`. -/
def c1fields : List FieldInfo :=
  [fiOf "Name" (.str "text") none false,
   fiOf "NAME" (.str "text") none false,
   fiOf "naMe" (.str "text") none false]

/-- The junction scenario: tables `a` and `b` with surrogate keys, and a pure
junction table `m2m_ab` with columns `a_id` and `b_id` forming the composite
primary key and referencing `a.id` and `b.id`. -/
def junctionData : String → TableData := fun t =>
  if t = "a" then
    ⟨[], [("__primary__", pkConstraint ["id"])],
     [fiOf "id" (.str "integer") (some "nextval") false]⟩
  else if t = "b" then
    ⟨[], [("__primary__", pkConstraint ["id"])],
     [fiOf "id" (.str "integer") (some "nextval") false]⟩
  else if t = "m2m_ab" then
    ⟨[("a_id", "id", "a"), ("b_id", "id", "b")],
     [("__primary__", pkConstraint ["a_id", "b_id"])],
     [fiOf "a_id" (.str "integer") none false, fiOf "b_id" (.str "integer") none false]⟩
  else ⟨[], [], []⟩

/-- The aggregated record map of the junction scenario. -/
def junctionRet : List (String × TIntro) :=
  match make_introspection junctionData ["a", "b", "m2m_ab"] with
  | .ok st => st.ret
  | .error _ => []

/-- The full output of the junction scenario. -/
def junctionOut : List String :=
  match runPipeline sqlite_get_field_type junctionData ["a", "b", "m2m_ab"] initialImports with
  | .ok (out, _) => out
  | .error _ => []

/-- First invocation schema for the shared-state scenario: one table with a
`datetime` column (which makes `get_field_type` add an import). -/
def c9dataA : String → TableData := fun _ => ⟨[], [], [fiOf "d" (.str "datetime") none false]⟩

/-- Second invocation schema: one table with an `int` column (adds no import). -/
def c9dataB : String → TableData := fun _ => ⟨[], [], [fiOf "n" (.str "int") none false]⟩

/-- The imports set after the first invocation (started from the class-level
initial value). -/
def c9importsAfter : List String :=
  match runPipeline sqlite_get_field_type c9dataA ["x"] initialImports with
  | .ok (_, imps) => imps
  | .error _ => []

/-- The output of the first invocation. -/
def c9outFirst : List String :=
  match runPipeline sqlite_get_field_type c9dataA ["x"] initialImports with
  | .ok (out, _) => out
  | .error _ => []

/-- Output of the second invocation when it observes the imports left behind by
the first one (what actually happens in one Python process). -/
def c9outStale : List String :=
  match runPipeline sqlite_get_field_type c9dataB ["y"] c9importsAfter with
  | .ok (out, _) => out
  | .error _ => []

/-- Output of the same second invocation from a pristine process. -/
def c9outFresh : List String :=
  match runPipeline sqlite_get_field_type c9dataB ["y"] initialImports with
  | .ok (out, _) => out
  | .error _ => []

/-- The relation-edge counters of an aggregation result (zero on failure). -/
def rcOf (r : Except PyError AggState) : Ctr :=
  match r with
  | .ok st => st.rel_counters
  | .error _ => fun _ => 0

/-- C4: `normalize_col_name` is not total: on the empty string (and on `"_id"`
with `is_related=True`, which strips to the empty string) the Python code
reaches `new_name[0]` with an empty `new_name` and raises `IndexError`, modelled
here by `none`. -/
theorem c4_normalize_col_name_empty_raises :
    normalize_col_name "" false = none ∧ normalize_col_name "_id" true = none := by
  constructor <;> rfl

/-- C1 counterexample: three columns whose names all normalize to the base
`name` are emitted as `name`, `name1`, `name1` — the third occurrence repeats
`name1` instead of the claimed `name2`, so the emitted set has a duplicate. -/
theorem c1_counterexample :
    normalizedNames "t" c1fields = ["name", "name1", "name1"] ∧
      ¬ (normalizedNames "t" c1fields).Nodup := by
  constructor
  · rfl
  · decide

/-- C8 counterexample: camel-style sanitization is not idempotent; `"a b"`
maps to `aB`, whose re-sanitization lower-cases it to `ab`. -/
theorem c8_counterexample :
    str_to_py_identifier (str_to_py_identifier "a b" CaseType.camel) CaseType.camel ≠
      str_to_py_identifier "a b" CaseType.camel := by
  decide

/-- C5 counterexample: title-style sanitization of `"true"` yields the reserved
keyword `True`. -/
theorem c5_counterexample :
    str_to_py_identifier "true" CaseType.title = "True" ∧
      iskeyword (str_to_py_identifier "true" CaseType.title) = true := by
  constructor
  · rfl
  · decide

/-- C2 counterexample: in the junction scenario the attribute hoisted onto
table `a` is named `b_id_set` (raw column name plus `_set`), not the claimed
`b_set`. -/
theorem c2_counterexample :
    ((retLookup junctionRet "a").map (fun t => t.rel_attrs.map RelAttr.name)).getD [] =
        ["b_id_set"] ∧
      "b_set" ∉ ((retLookup junctionRet "a").map (fun t => t.rel_attrs.map RelAttr.name)).getD [] := by
  constructor
  · rfl
  · decide

/-- C2 amended: the junction scenario produces exactly one to-many attribute on
`a` (named `b_id_set`, reverse `a_id_set`, target `b`), exactly one on `b`
(named `a_id_set`, reverse `b_id_set`, target `a`); the junction table gets no
aggregation record and no class declaration is emitted for it, while `a` and
`b` do get class declarations. -/
theorem c2_amended :
    (retLookup junctionRet "a").map (fun t => t.rel_attrs) =
        some [⟨"b_id_set", "b", "Set", "a_id_set", []⟩] ∧
      (retLookup junctionRet "b").map (fun t => t.rel_attrs) =
        some [⟨"a_id_set", "a", "Set", "b_id_set", []⟩] ∧
      retLookup junctionRet "m2m_ab" = none ∧
      "class M2MAb(db.Entity):" ∉ junctionOut ∧
      "class A(db.Entity):" ∈ junctionOut ∧
      "class B(db.Entity):" ∈ junctionOut ∧
      (junctionOut.filter (fun l => ("class ".data).isPrefixOf l.data)).length = 2 := by
  refine ⟨rfl, rfl, rfl, by decide, by decide, by decide, by decide⟩

/-- C7 counterexample: with the sqlite adapter an unknown type code that is not
`varchar(n)`-shaped does not fall back to `LongStr` — the adapter's
`assert size is not None` fails and the `AssertionError` passes through
`Command.get_field_type` (which catches only `KeyError`), aborting the run. -/
theorem c7_counterexample :
    cliGetFieldType sqlite_get_field_type initialImports
        (fiOf "u" (.str "uuid") none false) = .error .assertionError := by
  rfl

/-- C9 counterexample: `Command.imports` is a class attribute, so imports added
by one pipeline invocation persist into the next one in the same process: after
a run over a schema with a `datetime` column, a second run over a datetime-free
schema still emits `from datetime import datetime`, unlike the same run in a
fresh process. -/
theorem c9_counterexample :
    c9importsAfter ≠ initialImports ∧
      "from datetime import datetime" ∈ c9outStale ∧
      "from datetime import datetime" ∉ c9outFresh ∧
      c9outStale ≠ c9outFresh := by
  refine ⟨by decide, by decide, by decide, by decide⟩

theorem lookupKV_setKV_self {α : Type} (l : List (String × α)) (k : String) (v : α) :
    lookupKV (setKV l k v) k = some v := by
  unfold setKV
  by_cases h : (l.find? (fun p => p.1 = k)).isSome
  · rw [if_pos h]
    unfold lookupKV
    induction l with
    | nil => simp at h
    | cons p l ih =>
      by_cases hp : p.1 = k
      · simp [List.find?, hp]
      · simp only [List.map_cons]
        rw [if_neg hp]
        simp only [List.find?]
        rw [show (decide (p.1 = k)) = false by simp [hp]]
        apply ih
        simpa [List.find?, hp] using h
  · rw [if_neg h]
    unfold lookupKV
    rw [List.find?_append]
    rw [Option.not_isSome_iff_eq_none] at h
    simp [h, List.find?]

theorem length_le_setKV {α : Type} (l : List (String × α)) (k : String) (v : α) :
    l.length ≤ (setKV l k v).length := by
  unfold setKV
  split
  · simp
  · simp

theorem length_le_updateKV {α : Type} (m l : List (String × α)) :
    l.length ≤ (updateKV l m).length := by
  induction m generalizing l with
  | nil => simp [updateKV]
  | cons p m ih =>
    calc l.length ≤ (setKV l p.1 p.2).length := length_le_setKV l p.1 p.2
    _ ≤ _ := by simpa [updateKV] using ih (setKV l p.1 p.2)

theorem keys_map_setKV {α : Type} (l : List (String × α)) (k : String) (v : α) :
    (l.map (fun p => if p.1 = k then (k, v) else p)).map Prod.fst = l.map Prod.fst := by
  induction l with
  | nil => rfl
  | cons p l ih =>
    by_cases hp : p.1 = k
    · simp [hp, ih]
    · simp [hp, ih]

theorem mem_keys_setKV {α : Type} {l : List (String × α)} {k k' : String} {v : α}
    (h : k' ∈ (setKV l k v).map Prod.fst) : k' ∈ l.map Prod.fst ∨ k' = k := by
  unfold setKV at h
  split at h
  · rw [keys_map_setKV] at h
    exact Or.inl h
  · rw [List.map_append] at h
    rcases List.mem_append.1 h with h1 | h1
    · exact Or.inl h1
    · right
      simpa using h1

theorem mem_keys_updateKV {α : Type} {m l : List (String × α)} {k' : String}
    (h : k' ∈ (updateKV l m).map Prod.fst) :
    k' ∈ l.map Prod.fst ∨ k' ∈ m.map Prod.fst := by
  induction m generalizing l with
  | nil => exact Or.inl (by simpa [updateKV] using h)
  | cons p m ih =>
    have h1 : k' ∈ (updateKV (setKV l p.1 p.2) m).map Prod.fst := by
      simpa [updateKV] using h
    rcases ih h1 with h2 | h2
    · rcases mem_keys_setKV h2 with h3 | h3
      · exact Or.inl h3
      · exact Or.inr (by simp [h3])
    · exact Or.inr (by simp [h2])

theorem updateKV_nil_right {α : Type} (l : List (String × α)) : updateKV l [] = l := rfl

/-- C3: in the emitter, the `reverse=` keyword is attached to a relationship
attribute exactly when the relation-edge counter between the owning table and
the attribute's target table exceeds one (the attributes synthesized by the
resolver never carry a `reverse` key themselves). -/
theorem c3_reverse_disambiguation (rc : Ctr) (t : String) (attr : RelAttr)
    (h : lookupKV attr.kwargs "reverse" = none) :
    (lookupKV (relAttrKwargs rc t attr) "reverse").isSome = true ↔
      rc (t, attr.table) > 1 := by
  unfold relAttrKwargs
  by_cases hc : rc (t, attr.table) > 1
  · simp [hc, lookupKV_setKV_self]
  · simp [hc, h]

/-- C3 witness: with an edge count of 2 between `o` and `u`, the keyword is
attached. -/
theorem c3_witness :
    (lookupKV (relAttrKwargs (fun k => if k = ("o", "u") then 2 else 0) "o"
        ⟨"buyer", "u", "Required", "o_set", []⟩) "reverse").isSome = true :=
  (c3_reverse_disambiguation (fun k => if k = ("o", "u") then 2 else 0) "o"
    ⟨"buyer", "u", "Required", "o_set", []⟩ rfl).mpr (by decide)

/-- C6: for a non-relation column whose field-type lookup succeeds (and whose
adapter parameters do not smuggle a `primary_key` key), the emitter skips the
column exactly when its name is `id`, it is the sole primary-key column, the
field parameters are empty (so the only extra parameter is `primary_key=True`),
and the mapped type is `AUTO` (autoincrement); every other such column emits a
field line. -/
theorem c6_implicit_pk_elision (adapter : AdapterFT) (imports : List String)
    (relations : List (String × String × String)) (pks uniques : List String)
    (row : FieldInfo) (ft : String) (fp : List (String × PyVal)) (fn : List String)
    (imps1 : List String)
    (h1 : relFind relations row.name = none)
    (h2 : cliGetFieldType adapter imports row = .ok (ft, fp, fn, imps1))
    (h3 : lookupKV fp "primary_key" = none) :
    emitFieldRow adapter imports relations pks uniques row =
        .ok (none, imps1, (row.name, row.name)) ↔
      (row.name = "id" ∧ pks = [row.name] ∧ fp = [] ∧ ft = "AUTO") := by
  have h3' : fp.find? (fun p => p.1 = "primary_key") = none := by
    unfold lookupKV at h3
    exact Option.map_eq_none'.1 h3
  have hpkmem : "primary_key" ∉ fp.map Prod.fst := by
    intro hm
    rcases List.mem_map.1 hm with ⟨p, hp, he⟩
    have := List.find?_eq_none.1 h3' p hp
    simp [he] at this
  simp only [emitFieldRow, h2, h1, Option.isSome_none, Bool.false_eq_true, if_false]
  by_cases hskip : (row.name = "id" ∧
      updateKV (if pks = [row.name] then [("primary_key", PyVal.bool true)] else []) fp =
        [("primary_key", PyVal.bool true)] ∧ ft = "AUTO")
  · rw [if_pos hskip]
    simp only [Except.ok.injEq, Prod.mk.injEq, true_and]
    constructor
    · intro _
      obtain ⟨hid, hupd, hft⟩ := hskip
      refine ⟨hid, ?_, ?_, hft⟩
      · by_contra hpk
        rw [if_neg hpk] at hupd
        have : "primary_key" ∈ (updateKV ([] : List (String × PyVal)) fp).map Prod.fst := by
          rw [hupd]; simp
        rcases mem_keys_updateKV this with h4 | h4
        · simp at h4
        · exact hpkmem h4
      · by_contra hfp
        by_cases hpk : pks = [row.name]
        · rw [if_pos hpk] at hupd
          cases fp with
          | nil => exact hfp rfl
          | cons p ps =>
            have hne : ¬((("primary_key", PyVal.bool true) :: ([] : List (String × PyVal))).find?
                (fun q => q.1 = p.1)).isSome = true := by
              have : p.1 ≠ "primary_key" := by
                intro hcon
                exact hpkmem (by simp [← hcon])
              simp [List.find?, this.symm]
            have hlen : (updateKV [("primary_key", PyVal.bool true)] (p :: ps)).length ≥ 2 := by
              have : updateKV [("primary_key", PyVal.bool true)] (p :: ps) =
                  updateKV (setKV [("primary_key", PyVal.bool true)] p.1 p.2) ps := by
                simp [updateKV]
              rw [this]
              have h5 : (setKV [("primary_key", PyVal.bool true)] p.1 p.2).length = 2 := by
                unfold setKV
                rw [if_neg hne]
                rfl
              have := length_le_updateKV ps (setKV [("primary_key", PyVal.bool true)] p.1 p.2)
              omega
            rw [hupd] at hlen
            simp at hlen
        · rw [if_neg hpk] at hupd
          have : "primary_key" ∈ (updateKV ([] : List (String × PyVal)) fp).map Prod.fst := by
            rw [hupd]; simp
          rcases mem_keys_updateKV this with h4 | h4
          · simp at h4
          · exact hpkmem h4
    · intro _
      trivial
  · rw [if_neg hskip]
    simp only [Except.ok.injEq, Prod.mk.injEq]
    constructor
    · intro hcon
      exact absurd hcon.1 (by simp)
    · intro ⟨hid, hpks, hfp, hft⟩
      exfalso
      apply hskip
      refine ⟨hid, ?_, hft⟩
      subst hfp
      rw [if_pos hpks]
      rfl

/-- C6 witness: a sole-primary-key `id` column with a `nextval` default maps to
`AUTO` under the postgres adapter and is skipped. -/
theorem c6_witness :
    emitFieldRow postgres_get_field_type initialImports [] ["id"] []
        (fiOf "id" (.int 23) (some "nextval") false) =
      .ok (none, initialImports, ("id", "id")) :=
  (c6_implicit_pk_elision postgres_get_field_type initialImports [] ["id"] []
    (fiOf "id" (.int 23) (some "nextval") false) "AUTO" [] [] initialImports
    rfl rfl rfl).mpr ⟨rfl, rfl, rfl, rfl⟩

theorem bump2_symm {rc : Ctr} (x y : String)
    (h : ∀ a b, rc (a, b) = rc (b, a)) :
    ∀ a b, bump (bump rc (x, y)) (y, x) (a, b) = bump (bump rc (x, y)) (y, x) (b, a) := by
  intro a b
  have hab := h a b
  simp only [bump, Prod.mk.injEq]
  split_ifs <;> first | omega | tauto

theorem processRelations_symm (t : String) (rels : List (String × String × String)) :
    ∀ (st : AggState), (∀ a b, st.rel_counters (a, b) = st.rel_counters (b, a)) →
    ∀ st', processRelations t st rels = .ok st' →
    ∀ a b, st'.rel_counters (a, b) = st'.rel_counters (b, a) := by
  induction rels with
  | nil =>
    intro st h st' he
    simp only [processRelations, Except.ok.injEq] at he
    subst he
    exact h
  | cons p rest ih =>
    intro st h st' he
    obtain ⟨cn, ra, rt⟩ := p
    simp only [processRelations] at he
    cases hn : normalize_col_name cn true with
    | none => rw [hn] at he; exact absurd he (by simp)
    | some v =>
      obtain ⟨att0, kwargs, notes⟩ := v
      rw [hn] at he
      exact ih _ (bump2_symm t rt h) st' he

theorem processM2M_symm (st : AggState) (c1 : Ctr) (rts : List (String × String))
    (h : ∀ a b, st.rel_counters (a, b) = st.rel_counters (b, a))
    (st' : AggState) (he : processM2M st c1 rts = .ok st') :
    ∀ a b, st'.rel_counters (a, b) = st'.rel_counters (b, a) := by
  match rts with
  | [(tA, fA), (tB, fB)] =>
    simp only [processM2M, Except.ok.injEq] at he
    subst he
    exact bump2_symm tA tB h
  | [] => exact absurd he (by simp [processM2M])
  | [_] => exact absurd he (by simp [processM2M])
  | _ :: _ :: _ :: _ => exact absurd he (by simp [processM2M])

theorem processTable_symm (data : String → TableData) (st : AggState) (t : String)
    (h : ∀ a b, st.rel_counters (a, b) = st.rel_counters (b, a))
    (st' : AggState) (he : processTable data st t = .ok st') :
    ∀ a b, st'.rel_counters (a, b) = st'.rel_counters (b, a) := by
  unfold processTable at he
  by_cases hp : is_pony_table t = true
  · simp only [hp, if_true] at he
    simp only [Except.ok.injEq] at he
    subst he
    exact h
  · simp only [hp, Bool.false_eq_true, if_false] at he
    cases hnf : normalizeFields t (data t).relations st.counters (data t).description with
    | error e => rw [hnf] at he; exact absurd he (by simp)
    | ok pr =>
      obtain ⟨desc, c1⟩ := pr
      rw [hnf] at he
      dsimp only at he
      split at he
      · split at he
        · exact processM2M_symm _ _ _ h st' he
        · exact absurd he (by simp)
      · cases hpr : processRelations t ⟨c1, st.rel_counters, st.ret⟩ (data t).relations with
        | error e => rw [hpr] at he; exact absurd he (by simp)
        | ok st2 =>
          rw [hpr] at he
          simp only [Except.ok.injEq] at he
          subst he
          exact processRelations_symm t (data t).relations ⟨c1, st.rel_counters, st.ret⟩ h st2 hpr

theorem aggTables_symm (data : String → TableData) (tables : List String) :
    ∀ (st : AggState), (∀ a b, st.rel_counters (a, b) = st.rel_counters (b, a)) →
    ∀ st', aggTables data st tables = .ok st' →
    ∀ a b, st'.rel_counters (a, b) = st'.rel_counters (b, a) := by
  induction tables with
  | nil =>
    intro st h st' he
    simp only [aggTables, Except.ok.injEq] at he
    subst he
    exact h
  | cons t ts ih =>
    intro st h st' he
    simp only [aggTables] at he
    cases hpt : processTable data st t with
    | error e => rw [hpt] at he; exact absurd he (by simp)
    | ok st1 =>
      rw [hpt] at he
      exact ih st1 (processTable_symm data st t h st1 hpt) st' he

/-- C10: the relation-edge counters stay symmetric throughout aggregation —
every increment of one direction (in the junction branch and in the
forward/reverse branch alike) is paired with an increment of the opposite
direction, so from a symmetric initial state every ordered pair of tables keeps
equal counts in both directions after any sequence of tables is processed. -/
theorem c10_edge_counter_symmetry (data : String → TableData) (st : AggState)
    (tables : List String)
    (h : ∀ a b, st.rel_counters (a, b) = st.rel_counters (b, a)) (a b : String) :
    rcOf (aggTables data st tables) (a, b) = rcOf (aggTables data st tables) (b, a) := by
  cases he : aggTables data st tables with
  | error e => simp [rcOf]
  | ok st' =>
    simpa [rcOf] using aggTables_symm data tables st h st' he a b

/-- C10 witness: on the junction scenario the `(a, b)` and `(b, a)` counters
agree after aggregation. -/
theorem c10_witness :
    rcOf (aggTables junctionData initAggState ["a", "b", "m2m_ab"]) ("a", "b") =
      rcOf (aggTables junctionData initAggState ["a", "b", "m2m_ab"]) ("b", "a") :=
  c10_edge_counter_symmetry junctionData initAggState ["a", "b", "m2m_ab"]
    (fun _ _ => rfl) "a" "b"

theorem mem_addImport {l : List String} {i : String} (x : String) (h : i ∈ l) :
    i ∈ addImport l x := by
  unfold addImport
  split
  · exact h
  · exact List.mem_append_left _ h

theorem mem_importsAfter {l : List String} {i : String} (imp : Option String) (h : i ∈ l) :
    i ∈ importsAfter l imp := by
  cases imp with
  | none => simpa [importsAfter] using h
  | some s =>
    simp only [importsAfter]
    split
    · exact mem_addImport s h
    · exact h

theorem cliGetFieldType_imports_shape (adapter : AdapterFT) (imports : List String)
    (row : FieldInfo) (ft : String) (fp : List (String × PyVal)) (fn imps1 : List String)
    (he : cliGetFieldType adapter imports row = .ok (ft, fp, fn, imps1)) :
    ∃ imp, imps1 = importsAfter imports imp := by
  unfold cliGetFieldType at he
  cases ha : adapter row.type_code row with
  | error e =>
    rw [ha] at he
    cases e <;> dsimp only at he
    case keyError =>
      rw [if_neg (by decide)] at he
      simp only [Except.ok.injEq, Prod.mk.injEq] at he
      exact ⟨_, he.2.2.2.symm⟩
    all_goals exact absurd he (by simp)
  | ok v =>
    obtain ⟨ft0, opts, imp⟩ := v
    rw [ha] at he
    dsimp only at he
    split at he
    · split at he
      · simp only [Except.ok.injEq, Prod.mk.injEq] at he
        exact ⟨_, he.2.2.2.symm⟩
      · simp only [Except.ok.injEq, Prod.mk.injEq] at he
        exact ⟨_, he.2.2.2.symm⟩
    · simp only [Except.ok.injEq, Prod.mk.injEq] at he
      exact ⟨_, he.2.2.2.symm⟩

theorem cliGetFieldType_imports_mono (adapter : AdapterFT) (imports : List String)
    (row : FieldInfo) (ft : String) (fp : List (String × PyVal)) (fn imps1 : List String)
    (he : cliGetFieldType adapter imports row = .ok (ft, fp, fn, imps1)) :
    ∀ i ∈ imports, i ∈ imps1 := by
  obtain ⟨imp, hi⟩ := cliGetFieldType_imports_shape adapter imports row ft fp fn imps1 he
  intro i h
  rw [hi]
  exact mem_importsAfter imp h

theorem emitFieldRow_imports_mono (adapter : AdapterFT) (imports : List String)
    (relations : List (String × String × String)) (pks uniques : List String)
    (row : FieldInfo) (l? : Option String) (imps1 : List String) (pr : String × String)
    (he : emitFieldRow adapter imports relations pks uniques row = .ok (l?, imps1, pr)) :
    ∀ i ∈ imports, i ∈ imps1 := by
  unfold emitFieldRow at he
  cases hg : cliGetFieldType adapter imports row with
  | error e => rw [hg] at he; exact absurd he (by simp)
  | ok v =>
    obtain ⟨ft, fp, fn, i1⟩ := v
    rw [hg] at he
    dsimp only at he
    have hmono := cliGetFieldType_imports_mono adapter imports row ft fp fn i1 hg
    repeat' split at he
    all_goals
      simp only [Except.ok.injEq, Prod.mk.injEq] at he
    all_goals
      exact he.2.1 ▸ hmono

theorem emitRows_imports_mono (adapter : AdapterFT)
    (relations : List (String × String × String)) (pks uniques : List String)
    (rows : List FieldInfo) :
    ∀ (imports : List String) (lines : List String) (imps1 : List String)
      (c2f : List (String × String)),
      emitRows adapter imports relations pks uniques rows = .ok (lines, imps1, c2f) →
      ∀ i ∈ imports, i ∈ imps1 := by
  induction rows with
  | nil =>
    intro imports lines imps1 c2f he
    simp only [emitRows, Except.ok.injEq, Prod.mk.injEq] at he
    obtain ⟨-, h2, -⟩ := he
    subst h2
    exact fun i h => h
  | cons row rest ih =>
    intro imports lines imps1 c2f he
    simp only [emitRows] at he
    cases h1 : emitFieldRow adapter imports relations pks uniques row with
    | error e => rw [h1] at he; exact absurd he (by simp)
    | ok v =>
      obtain ⟨la, ia, pa⟩ := v
      rw [h1] at he
      dsimp only at he
      cases h2 : emitRows adapter ia relations pks uniques rest with
      | error e => rw [h2] at he; exact absurd he (by simp)
      | ok w =>
        obtain ⟨lb, ib, cb⟩ := w
        rw [h2] at he
        simp only [Except.ok.injEq, Prod.mk.injEq] at he
        obtain ⟨-, hb, -⟩ := he
        intro i h
        rw [← hb]
        exact ih ia lb ib cb h2 i
          (emitFieldRow_imports_mono adapter imports relations pks uniques row la ia pa h1 i h)

theorem emitTable_imports_mono (adapter : AdapterFT) (rc : Ctr) (imports : List String)
    (t : String) (d : TIntro) (lines imps1 : List String)
    (he : emitTable adapter rc imports t d = .ok (lines, imps1)) :
    ∀ i ∈ imports, i ∈ imps1 := by
  unfold emitTable at he
  cases h1 : emitRows adapter imports d.relations d.primary_key_columns d.unique_columns
      d.description with
  | error e => rw [h1] at he; exact absurd he (by simp)
  | ok v =>
    obtain ⟨fl, i1, c2f⟩ := v
    rw [h1] at he
    dsimp only at he
    have hmono := emitRows_imports_mono adapter d.relations d.primary_key_columns
      d.unique_columns d.description imports fl i1 c2f h1
    repeat' split at he
    all_goals first
      | (simp only [Except.ok.injEq, Prod.mk.injEq] at he
         exact he.2 ▸ hmono)
      | exact absurd he (by simp)

theorem emitTablesFold_imports_mono (adapter : AdapterFT) (rc : Ctr)
    (ret : List (String × TIntro)) :
    ∀ (imports lines imps1 : List String),
      emitTablesFold adapter rc imports ret = .ok (lines, imps1) →
      ∀ i ∈ imports, i ∈ imps1 := by
  induction ret with
  | nil =>
    intro imports lines imps1 he
    simp only [emitTablesFold, Except.ok.injEq, Prod.mk.injEq] at he
    obtain ⟨-, h2⟩ := he
    subst h2
    exact fun i h => h
  | cons p rest ih =>
    intro imports lines imps1 he
    obtain ⟨t, d⟩ := p
    simp only [emitTablesFold] at he
    cases h1 : emitTable adapter rc imports t d with
    | error e => rw [h1] at he; exact absurd he (by simp)
    | ok v =>
      obtain ⟨la, ia⟩ := v
      rw [h1] at he
      dsimp only at he
      cases h2 : emitTablesFold adapter rc ia rest with
      | error e => rw [h2] at he; exact absurd he (by simp)
      | ok w =>
        obtain ⟨lb, ib⟩ := w
        rw [h2] at he
        simp only [Except.ok.injEq, Prod.mk.injEq] at he
        obtain ⟨-, hb⟩ := he
        intro i h
        rw [← hb]
        exact ih ia lb ib h2 i
          (emitTable_imports_mono adapter rc imports t d la ia h1 i h)

/-- C9 amended: the counter dictionaries are per-instance, but the `imports`
set is class-level shared state: one invocation only ever adds to it, and the
final output embeds the whole set — so anything an earlier invocation put there
is observed (and re-emitted) by every later invocation in the same process. -/
theorem c9_amended (adapter : AdapterFT) (data : String → TableData)
    (tables : List String) (imports0 out imports1 : List String)
    (h : runPipeline adapter data tables imports0 = .ok (out, imports1)) :
    (∀ i ∈ imports0, i ∈ imports1) ∧ (∀ i ∈ imports1, i ∈ out) := by
  unfold runPipeline at h
  cases hm : make_introspection data tables with
  | error e => rw [hm] at h; exact absurd h (by simp)
  | ok st =>
    rw [hm] at h
    dsimp only at h
    unfold getOutput at h
    cases hf : emitTablesFold adapter st.rel_counters imports0 st.ret with
    | error e => rw [hf] at h; exact absurd h (by simp)
    | ok v =>
      obtain ⟨lines, i1⟩ := v
      rw [hf] at h
      dsimp only at h
      simp only [Except.ok.injEq, Prod.mk.injEq] at h
      obtain ⟨ho, hi⟩ := h
      constructor
      · intro i hm0
        rw [← hi]
        exact emitTablesFold_imports_mono adapter st.rel_counters st.ret imports0 lines i1
          hf i hm0
      · intro i hm1
        rw [← ho]
        rw [← hi] at hm1
        exact List.mem_append_left _ (List.mem_append_left _ (List.mem_append_right _ hm1))

/-- C9 amended witness: the initial class-level import line survives into the
imports set of a concrete invocation. -/
theorem c9_amended_witness : "from pony.orm import *" ∈ c9importsAfter :=
  (c9_amended sqlite_get_field_type c9dataA ["x"] initialImports c9outFirst
    c9importsAfter rfl).1 "from pony.orm import *" (by decide)

theorem string_append_empty (b : String) : b ++ "" = b := by
  apply String.ext
  simp [String.data_append]

theorem string_append_one_ne (b : String) : b ++ "1" ≠ b := by
  intro h
  have := congrArg (fun s => s.data.length) h
  simp [String.data_append] at this

theorem string_append_one_cancel {x y : String} (h : x ++ "1" = y ++ "1") : x = y := by
  apply String.ext
  have := congrArg String.data h
  simp only [String.data_append] at this
  exact List.append_cancel_right this

theorem normalizeFields_emitSpec (t : String) (fields : List FieldInfo) :
    ∀ (c : Ctr) (done : List String),
      (∀ f ∈ fields, (normalize_col_name f.name false).isSome = true) →
      (∀ x, c (t, x) = done.count x) →
      ∃ fs2 c2, normalizeFields t [] c fields = .ok (fs2, c2) ∧
        fs2.map (fun f => f.name) = emitSpec done (basesOf fields) := by
  induction fields with
  | nil => exact fun c done h0 hc => ⟨[], c, rfl, rfl⟩
  | cons f fs ih =>
    intro c done h0 hc
    have hs := h0 f (List.mem_cons_self f fs)
    rw [Option.isSome_iff_exists] at hs
    obtain ⟨v, hv⟩ := hs
    obtain ⟨nn, ps, ns⟩ := v
    have hbase : baseNameOf f.name = nn := by
      unfold baseNameOf
      rw [hv]
    have hrec := ih (bump c (t, nn ++ sfx (c (t, nn)))) (done ++ [nn ++ sfx (done.count nn)])
      (fun g hg => h0 g (List.mem_cons_of_mem f hg))
      (by
        intro x
        have hcn := hc nn
        simp only [bump, Prod.mk.injEq, List.count_append]
        by_cases hx : x = nn ++ sfx (done.count nn)
        · rw [if_pos (by simp [hx, hcn]), hx, hc]
          simp
        · rw [if_neg (by simp [hcn]; intro hcon; exact hx hcon), hc]
          have : ([nn ++ sfx (done.count nn)].count x) = 0 := by
            simp [List.count_singleton]
            intro hcon
            exact absurd hcon.symm hx
          omega)
    obtain ⟨fs2, c2, hok, hnames⟩ := hrec
    refine ⟨{f with name := (nn ++ sfx (c (t, nn)))} :: fs2, c2, ?_, ?_⟩
    · simp only [normalizeFields]
      rw [hv]
      dsimp only
      rw [hc nn]
      rw [hc nn] at hok
      rw [hok]
      rfl
    · simp only [List.map_cons, hnames]
      have hb2 : basesOf (f :: fs) = nn :: basesOf fs := by
        simp [basesOf, hbase]
      rw [hb2]
      simp only [emitSpec]
      rw [hc nn]

theorem emitSpec_eq_mixNames : ∀ (bs done seen : List String),
    (∀ b ∈ bs, done.count b = if seen.contains b then 1 else 0) →
    (∀ x ∈ bs, ∀ y ∈ bs, x ++ "1" ≠ y) →
    emitSpec done bs = mixNames seen bs := by
  intro bs
  induction bs with
  | nil => intro done seen h1 h3; rfl
  | cons b bs ih =>
    intro done seen h1 h3
    have hcount := h1 b (List.mem_cons_self b bs)
    have h3' : ∀ x ∈ bs, ∀ y ∈ bs, x ++ "1" ≠ y :=
      fun x hx y hy => h3 x (List.mem_cons_of_mem b hx) y (List.mem_cons_of_mem b hy)
    simp only [emitSpec, mixNames]
    cases hmem : seen.contains b with
    | true =>
      rw [hmem] at hcount
      simp only [if_pos] at hcount
      rw [hcount, if_pos rfl, show sfx 1 = "1" from rfl]
      congr 1
      apply ih _ _ _ h3'
      intro b' hb'
      rw [List.count_append]
      by_cases hbb : b' = b
      · subst hbb
        have h0 : List.count b' [b' ++ "1"] = 0 := by
          simp only [List.count_singleton, beq_iff_eq]
          rw [if_neg]
          intro hcon
          exact string_append_one_ne b' hcon
        rw [h0, hcount]
        simp [List.contains_cons]
      · have h0 : List.count b' [b ++ "1"] = 0 := by
          simp only [List.count_singleton, beq_iff_eq]
          rw [if_neg]
          intro hcon
          exact h3 b (List.mem_cons_self b bs) b' (List.mem_cons_of_mem b hb') hcon
        rw [h0, h1 b' (List.mem_cons_of_mem b hb')]
        have : ((b :: seen).contains b') = seen.contains b' := by
          simp [List.contains_cons, hbb]
        rw [this]
        omega
    | false =>
      rw [hmem] at hcount
      rw [if_neg (by simp)] at hcount
      rw [hcount, if_neg (by simp), show sfx 0 = "" from rfl, string_append_empty b]
      congr 1
      apply ih _ _ _ h3'
      intro b' hb'
      rw [List.count_append]
      by_cases hbb : b' = b
      · subst hbb
        have h0 : List.count b' [b'] = 1 := by simp
        rw [h0, hcount]
        simp [List.contains_cons]
      · have h0 : List.count b' [b] = 0 := by
          simp only [List.count_singleton, beq_iff_eq]
          rw [if_neg]
          intro hcon
          exact hbb hcon.symm
        rw [h0, h1 b' (List.mem_cons_of_mem b hb')]
        have : ((b :: seen).contains b') = seen.contains b' := by
          simp [List.contains_cons, hbb]
        rw [this]
        omega

theorem mem_mixNames : ∀ (l s : List String) (y : String),
    y ∈ mixNames s l → ∃ x, x ∈ l ∧ (y = x ∨ y = x ++ "1") := by
  intro l
  induction l with
  | nil => intro s y h; exact absurd h (by simp [mixNames])
  | cons b bs ih =>
    intro s y h
    simp only [mixNames, List.mem_cons] at h
    rcases h with h | h
    · by_cases hmem : s.contains b
      · rw [if_pos hmem] at h
        exact ⟨b, List.mem_cons_self b bs, Or.inr h⟩
      · rw [if_neg hmem] at h
        exact ⟨b, List.mem_cons_self b bs, Or.inl h⟩
    · obtain ⟨x, hx, hy⟩ := ih (b :: s) y h
      exact ⟨x, List.mem_cons_of_mem b hx, hy⟩

theorem not_mem_mixNames (b : String) : ∀ (l s : List String),
    s.contains b = true → (∀ x ∈ l, x ++ "1" ≠ b) → b ∉ mixNames s l := by
  intro l
  induction l with
  | nil => intro s hs hl; simp [mixNames]
  | cons x bs ih =>
    intro s hs hl
    simp only [mixNames, List.mem_cons, not_or]
    constructor
    · by_cases hmem : s.contains x
      · rw [if_pos hmem]
        intro hcon
        exact hl x (List.mem_cons_self x bs) hcon.symm
      · rw [if_neg hmem]
        intro hcon
        subst hcon
        exact hmem hs
    · refine ih (x :: s) ?_ (fun z hz => hl z (List.mem_cons_of_mem x hz))
      simp only [List.contains_cons, hs, Bool.or_true]

theorem mixNames_nodup : ∀ (bs seen : List String),
    (∀ x ∈ bs, ∀ y ∈ bs, x ++ "1" ≠ y) →
    (∀ x ∈ bs, bs.count x + (if seen.contains x then 1 else 0) ≤ 2) →
    (mixNames seen bs).Nodup := by
  intro bs
  induction bs with
  | nil => intro seen h3 h4; simp [mixNames]
  | cons b bs ih =>
    intro seen h3 h4
    have h3' : ∀ x ∈ bs, ∀ y ∈ bs, x ++ "1" ≠ y :=
      fun x hx y hy => h3 x (List.mem_cons_of_mem b hx) y (List.mem_cons_of_mem b hy)
    simp only [mixNames, List.nodup_cons]
    constructor
    · cases hmem : seen.contains b with
      | false =>
        rw [if_neg (by simp)]
        apply not_mem_mixNames b bs (b :: seen) (by simp [List.contains_cons])
        exact fun x hx =>
          h3 x (List.mem_cons_of_mem b hx) b (List.mem_cons_self b bs)
      | true =>
        rw [if_pos rfl]
        intro hcon
        obtain ⟨x, hx, hy⟩ := mem_mixNames bs (b :: seen) (b ++ "1") hcon
        rcases hy with hy | hy
        · exact h3 b (List.mem_cons_self b bs) x (List.mem_cons_of_mem b hx) hy
        · have hxb : b = x := string_append_one_cancel hy
          subst hxb
          have hcnt := h4 b (List.mem_cons_self b bs)
          rw [hmem, if_pos rfl] at hcnt
          have hnz : bs.count b ≠ 0 := fun h0 => (List.count_eq_zero.1 h0) hx
          rw [List.count_cons_self] at hcnt
          omega
    · apply ih (b :: seen) h3'
      intro x hx
      have hcnt := h4 x (List.mem_cons_of_mem b hx)
      by_cases hbb : x = b
      · subst hbb
        rw [List.count_cons_self] at hcnt
        have hcx : ((x :: seen).contains x) = true := by simp [List.contains_cons]
        rw [hcx, if_pos rfl]
        split at hcnt <;> omega
      · have heq : ((b :: seen).contains x) = seen.contains x := by
          simp [List.contains_cons, hbb]
        rw [heq]
        have hbx : ¬b = x := fun h => hbb h.symm
        have hcc : (b :: bs).count x = bs.count x := by
          rw [List.count_cons]
          simp [hbb, hbx]
        rw [hcc] at hcnt
        exact hcnt

/-- C1 amended: the counter leaves the first occurrence of a base name
unsuffixed and turns every later occurrence into `base1` (the post-suffix
increment never advances the base counter past one), so the emitted names are
duplicate-free exactly under the side conditions that no base occurs three or
more times and no base equals another base with `1` appended. -/
theorem c1_amended (t : String) (fields : List FieldInfo)
    (h0 : ∀ f ∈ fields, (normalize_col_name f.name false).isSome = true)
    (h1 : ∀ b ∈ basesOf fields, (basesOf fields).count b ≤ 2)
    (h2 : ∀ b ∈ basesOf fields, ∀ b2 ∈ basesOf fields, b ++ "1" ≠ b2) :
    (normalizedNames t fields).Nodup := by
  obtain ⟨fs2, c2, hok, hnames⟩ :=
    normalizeFields_emitSpec t fields (fun _ => 0) [] h0 (fun x => rfl)
  unfold normalizedNames
  rw [hok]
  dsimp only
  rw [hnames]
  rw [emitSpec_eq_mixNames (basesOf fields) [] [] (by intro b hb; rfl) h2]
  apply mixNames_nodup (basesOf fields) [] h2
  intro x hx
  simpa using h1 x hx

/-- C1 amended witness: two columns with the same base name yield distinct
emitted names. -/
theorem c1_amended_witness :
    (normalizedNames "t" [fiOf "Name" (.str "text") none false,
      fiOf "naMe" (.str "text") none false]).Nodup :=
  c1_amended "t" [fiOf "Name" (.str "text") none false, fiOf "naMe" (.str "text") none false]
    (by decide) (by decide) (by decide)

/-- C7 amended: the recovery path exists only for the dict-lookup adapters —
with the postgres adapter an unrecognized integer type code raises `KeyError`,
which `Command.get_field_type` catches, returning `LongStr` with the note
`This field type is a guess.` and registering the `LongStr` import; the sqlite
adapter never raises `KeyError` for unknown codes: it maps `varchar(n)`-shaped
codes to `str` with `max_len=n` itself, and any other unknown code fails its
own assertion, aborting the run with an uncaught `AssertionError`. -/
theorem c7_amended (n : Int) (s : String) (row : FieldInfo) (imports : List String)
    (h1 : lookupInt pgTypes n = none)
    (h2 : row.type_code = .int n)
    (h3 : lookupKV sqliteTypes (lowerStr s) = none)
    (h4 : get_field_size (lowerStr s) = none) :
    cliGetFieldType postgres_get_field_type imports row =
        .ok ("LongStr", [], ["This field type is a guess."],
             addImport imports "from pony.orm.ormtypes import LongStr") ∧
      cliGetFieldType sqlite_get_field_type imports {row with type_code := .str s} =
        .error .assertionError := by
  constructor
  · have ha : postgres_get_field_type row.type_code row = .error .keyError := by
      unfold postgres_get_field_type
      rw [h2]
      dsimp only [pyIntOf]
      rw [h1]
    unfold cliGetFieldType
    rw [ha]
    dsimp only
    rw [if_neg (by decide)]
    rw [if_neg (by decide)]
    rfl
  · have ha : sqlite_get_field_type (TypeCode.str s) {row with type_code := .str s} =
        .error .assertionError := by
      unfold sqlite_get_field_type
      dsimp only [typeCodeStr]
      rw [h3, h4]
    unfold cliGetFieldType
    dsimp only
    rw [ha]

/-- C7 amended witness: postgres type code 99999 recovers to `LongStr`; sqlite
type code `uuid` aborts with an `AssertionError`. -/
theorem c7_amended_witness :
    cliGetFieldType postgres_get_field_type initialImports
        (fiOf "u" (.int 99999) none false) =
        .ok ("LongStr", [], ["This field type is a guess."],
             addImport initialImports "from pony.orm.ormtypes import LongStr") ∧
      cliGetFieldType sqlite_get_field_type initialImports
        {(fiOf "u" (.int 99999) none false) with type_code := .str "uuid"} =
        .error .assertionError :=
  c7_amended 99999 "uuid" (fiOf "u" (.int 99999) none false) initialImports
    rfl rfl rfl rfl

theorem charOfNat_toNat {n : Nat} (h : n < 55296) : (Char.ofNat n).toNat = n := by
  have hv : n.isValidChar := Or.inl h
  simp [Char.ofNat, hv, Char.toNat, Char.ofNatAux, UInt32.toNat, BitVec.toNat_ofNatLt]

theorem toUpper_of_lower {c : Char} (h : isLowerAlpha c = true) :
    c.toUpper = Char.ofNat (c.toNat - 32) := by
  simp only [isLowerAlpha, Bool.and_eq_true, decide_eq_true_eq] at h
  unfold Char.toUpper
  rw [if_pos (by omega)]

theorem toNat_toUpper_of_lower {c : Char} (h : isLowerAlpha c = true) :
    c.toUpper.toNat = c.toNat - 32 := by
  have hb := h
  simp only [isLowerAlpha, Bool.and_eq_true, decide_eq_true_eq] at h
  rw [toUpper_of_lower hb, charOfNat_toNat (by omega)]

theorem isUpper_toUpper_of_lower {c : Char} (h : isLowerAlpha c = true) :
    isUpperAlpha c.toUpper = true := by
  have h2 := toNat_toUpper_of_lower h
  simp only [isLowerAlpha, Bool.and_eq_true, decide_eq_true_eq] at h
  simp only [isUpperAlpha, Bool.and_eq_true, decide_eq_true_eq, h2]
  omega

theorem toLower_of_good {c : Char} (h : goodChar c = true) : c.toLower = c := by
  simp only [goodChar, sChar, isLowerAlpha, isDigitCh, Bool.or_eq_true, Bool.and_eq_true,
    decide_eq_true_eq] at h
  unfold Char.toLower
  rcases h with (h | h) | h
  · rw [if_neg (by omega)]
  · rw [if_neg (by omega)]
  · subst h
    rfl

theorem toUpper_of_nonlower {c : Char} (h : isLowerAlpha c = false) : c.toUpper = c := by
  have h2 : ¬(97 ≤ c.toNat ∧ c.toNat ≤ 122) := by
    simp only [isLowerAlpha] at h
    intro hcon
    simp [hcon.1, hcon.2] at h
  unfold Char.toUpper
  rw [if_neg (by simpa using h2)]

theorem toLower_toUpper_of_good {c : Char} (h : goodChar c = true) :
    c.toUpper.toLower = c := by
  by_cases hl : isLowerAlpha c = true
  · have h1 := toNat_toUpper_of_lower hl
    have hb := hl
    simp only [isLowerAlpha, Bool.and_eq_true, decide_eq_true_eq] at hb
    have h2 : c.toUpper.toLower = Char.ofNat (c.toUpper.toNat + 32) := by
      unfold Char.toLower
      rw [if_pos (by rw [h1]; omega)]
    rw [h2, h1, show c.toNat - 32 + 32 = c.toNat by omega, Char.ofNat_toNat]
  · have hng : c.toUpper = c := toUpper_of_nonlower (by simpa using hl)
    rw [hng]
    exact toLower_of_good h

theorem goodChar_toUpper {c : Char} (h : goodChar c = true) :
    (isAlnumCh c.toUpper || c.toUpper = '_') = true := by
  by_cases hl : isLowerAlpha c = true
  · simp [isAlnumCh, isAlphaCh, isUpper_toUpper_of_lower hl]
  · rw [toUpper_of_nonlower (by simpa using hl)]
    simp only [goodChar, sChar, hl, Bool.false_or, Bool.or_eq_true] at h
    rcases h with h | h
    · simp [isAlnumCh, isAlphaCh, h]
    · simp [h]

theorem notLower_toUpper (c : Char) :
    isLowerAlpha c.toUpper = false := by
  by_cases hl : isLowerAlpha c = true
  · have h2 := isUpper_toUpper_of_lower hl
    simp only [isUpperAlpha, Bool.and_eq_true, decide_eq_true_eq] at h2
    simp only [isLowerAlpha, Bool.and_eq_false_iff]
    left
    simpa using by omega
  · rw [toUpper_of_nonlower (by simpa using hl)]
    simpa using hl

theorem slugWordsAux_facts : ∀ (l acc : List Char), acc.all sChar = true →
    ∀ w ∈ slugWordsAux l acc, w ≠ [] ∧ w.all sChar = true := by
  intro l
  induction l with
  | nil =>
    intro acc hacc w hw
    simp only [slugWordsAux] at hw
    split at hw
    · exact absurd hw (by simp)
    · simp only [List.mem_singleton] at hw
      subst hw
      constructor
      · simpa [List.isEmpty_iff] using (by assumption : ¬acc.isEmpty = true) ∘ (by
          intro h2
          simp [List.isEmpty_iff, h2])
      · simpa using hacc
  | cons c rest ih =>
    intro acc hacc w hw
    simp only [slugWordsAux] at hw
    split at hw
    · exact ih (c :: acc) (by simp_all) w hw
    · split at hw
      · exact ih [] rfl w hw
      · simp only [List.mem_cons] at hw
        rcases hw with hw | hw
        · subst hw
          constructor
          · simpa [List.isEmpty_iff] using (by assumption : ¬acc.isEmpty = true) ∘ (by
              intro h2
              simp [List.isEmpty_iff, h2])
          · simpa using hacc
        · exact ih [] rfl w hw

theorem slugWordsAux_append_run : ∀ (w : List Char), w.all sChar = true →
    ∀ (rest acc : List Char),
      slugWordsAux (w ++ rest) acc = slugWordsAux rest (w.reverse ++ acc) := by
  intro w
  induction w with
  | nil => intro _ rest acc; rfl
  | cons c w ih =>
    intro hall rest acc
    simp only [Bool.and_eq_true, List.all_cons] at hall
    simp only [List.cons_append, slugWordsAux]
    rw [if_pos hall.1]
    change slugWordsAux (w ++ rest) (c :: acc) = _
    rw [ih hall.2 rest (c :: acc)]
    congr 1
    simp

theorem slugWordsAux_sep (rest : List Char) (acc : List Char) (hacc : acc ≠ []) :
    slugWordsAux ('_' :: rest) acc = acc.reverse :: slugWordsAux rest [] := by
  simp only [slugWordsAux]
  rw [if_neg (by decide), if_neg (by simpa [List.isEmpty_iff] using hacc)]

theorem slugWordsAux_sep_nil (rest : List Char) :
    slugWordsAux ('_' :: rest) [] = slugWordsAux rest [] := by
  simp only [slugWordsAux]
  rw [if_neg (by decide), if_pos (by rfl)]

theorem slugWords_single (w : List Char) (hw : w ≠ []) (hall : w.all sChar = true) :
    slugWords w = [w] := by
  unfold slugWords
  have := slugWordsAux_append_run w hall [] []
  rw [List.append_nil] at this
  rw [this]
  simp only [slugWordsAux, List.append_nil]
  rw [if_neg (by simpa [List.isEmpty_iff] using (by simpa using hw : ¬w.reverse = []))]
  simp

theorem slugWords_interU : ∀ (ws : List (List Char)),
    (∀ w ∈ ws, w ≠ [] ∧ w.all sChar = true) →
    slugWords (interU ws) = ws := by
  intro ws
  induction ws with
  | nil => intro _; rfl
  | cons w ws ih =>
    intro h
    have hw := h w (List.mem_cons_self w ws)
    cases ws with
    | nil =>
      simp only [interU]
      exact slugWords_single w hw.1 hw.2
    | cons w2 ws2 =>
      show slugWords (w ++ '_' :: interU (w2 :: ws2)) = _
      unfold slugWords
      rw [slugWordsAux_append_run w hw.2, List.append_nil,
        slugWordsAux_sep _ _ (by simpa using hw.1)]
      simp only [List.reverse_reverse]
      congr 1
      exact ih (fun v hv => h v (List.mem_cons_of_mem w hv))

theorem slugWords_interU_trail : ∀ (ws : List (List Char)),
    (∀ w ∈ ws, w ≠ [] ∧ w.all sChar = true) →
    slugWords (interU ws ++ ['_']) = ws := by
  intro ws
  induction ws with
  | nil => intro _; rfl
  | cons w ws ih =>
    intro h
    have hw := h w (List.mem_cons_self w ws)
    cases ws with
    | nil =>
      show slugWords (w ++ ['_']) = _
      unfold slugWords
      rw [slugWordsAux_append_run w hw.2, List.append_nil,
        slugWordsAux_sep _ _ (by simpa using hw.1)]
      simp [slugWordsAux]
    | cons w2 ws2 =>
      show slugWords ((w ++ '_' :: interU (w2 :: ws2)) ++ ['_']) = _
      unfold slugWords
      rw [List.append_assoc, List.cons_append,
        slugWordsAux_append_run w hw.2, List.append_nil,
        slugWordsAux_sep _ _ (by simpa using hw.1)]
      simp only [List.reverse_reverse]
      congr 1
      exact ih (fun v hv => h v (List.mem_cons_of_mem w hv))

theorem interU_chars : ∀ (ws : List (List Char)),
    (∀ w ∈ ws, w.all sChar = true) →
    ∀ c ∈ interU ws, goodChar c = true := by
  intro ws
  induction ws with
  | nil => intro _ c hc; exact absurd hc (by simp [interU])
  | cons w ws ih =>
    intro h c hc
    cases ws with
    | nil =>
      simp only [interU] at hc
      have hall := List.all_eq_true.1 (h w (List.mem_cons_self w [])) c hc
      simp only [goodChar, Bool.or_eq_true]
      exact Or.inl (by simpa using hall)
    | cons w2 ws2 =>
      simp only [interU, List.mem_append, List.mem_cons] at hc
      rcases hc with hc | hc | hc
      · have := List.all_eq_true.1 (h w (List.mem_cons_self w _)) c hc
        simp only [goodChar, Bool.or_eq_true]
        exact Or.inl (by simpa using this)
      · subst hc
        rfl
      · exact ih (fun v hv => h v (List.mem_cons_of_mem w hv)) c hc

theorem map_toLower_of_good : ∀ (l : List Char), (∀ c ∈ l, goodChar c = true) →
    l.map Char.toLower = l := by
  intro l
  induction l with
  | nil => intro _; rfl
  | cons c l ih =>
    intro h
    simp only [List.map_cons]
    rw [toLower_of_good (h c (List.mem_cons_self c l)),
      ih (fun d hd => h d (List.mem_cons_of_mem c hd))]

theorem map_dotRepl_of_good : ∀ (l : List Char), (∀ c ∈ l, goodChar c = true) →
    l.map (fun c => if c = '.' then '_' else c) = l := by
  intro l
  induction l with
  | nil => intro _; rfl
  | cons c l ih =>
    intro h
    simp only [List.map_cons]
    rw [if_neg (by
      intro hcon
      subst hcon
      exact absurd (h '.' (List.mem_cons_self _ l)) (by decide)),
      ih (fun d hd => h d (List.mem_cons_of_mem c hd))]

theorem slugifyL_chars (l : List Char) : ∀ c ∈ slugifyL l, goodChar c = true := by
  unfold slugifyL
  exact interU_chars _ (fun w hw => (slugWordsAux_facts _ [] rfl w hw).2)

theorem slugifyL_canonical (ws : List (List Char))
    (h : ∀ w ∈ ws, w ≠ [] ∧ w.all sChar = true) :
    slugifyL (interU ws) = interU ws := by
  unfold slugifyL
  rw [map_toLower_of_good _ (interU_chars ws (fun w hw => (h w hw).2)),
    slugWords_interU ws h]

theorem filter_alnum_of_sChar : ∀ (l : List Char), l.all sChar = true →
    l.filter isAlnumCh = l := by
  intro l
  induction l with
  | nil => intro _; rfl
  | cons c l ih =>
    intro h
    simp only [List.all_cons, Bool.and_eq_true] at h
    rw [List.filter_cons_of_pos (by
      simp only [sChar, Bool.or_eq_true] at h
      simp only [isAlnumCh, isAlphaCh, Bool.or_eq_true]
      rcases h.1 with h1 | h1
      · exact Or.inl (Or.inl h1)
      · exact Or.inr h1), ih h.2]

theorem filter_alnum_interU : ∀ (ws : List (List Char)),
    (∀ w ∈ ws, w.all sChar = true) →
    (interU ws).filter isAlnumCh = ws.flatten := by
  intro ws
  induction ws with
  | nil => intro _; rfl
  | cons w ws ih =>
    intro h
    cases ws with
    | nil =>
      simp only [interU, List.flatten]
      rw [filter_alnum_of_sChar w (h w (List.mem_cons_self w []))]
      simp
    | cons w2 ws2 =>
      simp only [interU, List.flatten]
      rw [List.filter_append, filter_alnum_of_sChar w (h w (List.mem_cons_self w _)),
        List.filter_cons_of_neg (by decide),
        ih (fun v hv => h v (List.mem_cons_of_mem w hv))]
      simp [interU, List.flatten]

theorem flatten_all_sChar (ws : List (List Char))
    (h : ∀ w ∈ ws, w.all sChar = true) : ws.flatten.all sChar = true := by
  induction ws with
  | nil => rfl
  | cons w ws ih =>
    simp only [List.flatten, List.all_append, Bool.and_eq_true]
    exact ⟨h w (List.mem_cons_self w ws), ih (fun v hv => h v (List.mem_cons_of_mem w hv))⟩

theorem iskeyword_mem {s : String} (h : iskeyword s = true) : s ∈ kwlist := by
  simpa [iskeyword, List.contains_iff_exists_mem_beq, beq_iff_eq] using h

theorem kw_head_bool : kwlist.all (fun k => !(k.data.headD '_' == '_')) = true := by decide

theorem kw_last_bool : kwlist.all (fun k => !(k.data.getLast? == some '_')) = true := by decide

theorem kw_alpha_bool : kwlist.all (fun k => k.data.all isAlphaCh) = true := by decide

theorem kw_lower_or_tfn_bool :
    kwlist.all (fun k => k.data.all isLowerAlpha ||
      (k == "True" || k == "False" || k == "None")) = true := by decide

theorem kw_haslower_bool : kwlist.all (fun k => k.data.any isLowerAlpha) = true := by decide

theorem kw_head_ne {k : String} (hk : k ∈ kwlist) : k.data.headD '_' ≠ '_' := by
  have := List.all_eq_true.1 kw_head_bool k hk
  simpa using this

theorem kw_last_ne {k : String} (hk : k ∈ kwlist) : k.data.getLast? ≠ some '_' := by
  have := List.all_eq_true.1 kw_last_bool k hk
  simpa using this

theorem kw_all_alpha {k : String} (hk : k ∈ kwlist) : k.data.all isAlphaCh = true :=
  List.all_eq_true.1 kw_alpha_bool k hk

theorem kw_lower_or_tfn {k : String} (hk : k ∈ kwlist) :
    k.data.all isLowerAlpha = true ∨ (k = "True" ∨ k = "False" ∨ k = "None") := by
  have := List.all_eq_true.1 kw_lower_or_tfn_bool k hk
  simp only [Bool.or_eq_true, beq_iff_eq] at this
  tauto

theorem kw_has_lower {k : String} (hk : k ∈ kwlist) : k.data.any isLowerAlpha = true :=
  List.all_eq_true.1 kw_haslower_bool k hk

theorem not_iskeyword_underscore_cons (F : List Char) :
    iskeyword (String.mk ('_' :: F)) = false := by
  by_contra hcon
  simp only [Bool.not_eq_false] at hcon
  have hk := iskeyword_mem hcon
  exact kw_head_ne hk rfl

theorem not_iskeyword_append_underscore (l : List Char) :
    iskeyword (String.mk (l ++ ['_'])) = false := by
  by_contra hcon
  simp only [Bool.not_eq_false] at hcon
  have hk := iskeyword_mem hcon
  apply kw_last_ne hk
  show (String.mk (l ++ ['_'])).data.getLast? = some '_'
  simp

theorem lower_of_sChar_alpha {c : Char} (hs : sChar c = true) (ha : isAlphaCh c = true) :
    isLowerAlpha c = true := by
  simp only [sChar, Bool.or_eq_true] at hs
  rcases hs with hs | hs
  · exact hs
  · exfalso
    simp only [isAlphaCh, isLowerAlpha, isUpperAlpha, isDigitCh, Bool.or_eq_true,
      Bool.and_eq_true, decide_eq_true_eq] at ha hs
    omega

theorem digit_of_sChar_not_alpha {c : Char} (hs : sChar c = true)
    (ha : isAlphaCh c = false) : isDigitCh c = true := by
  have hs2 : isLowerAlpha c = true ∨ isDigitCh c = true := by
    simpa [sChar] using hs
  rcases hs2 with h1 | h1
  · exfalso
    rw [isAlphaCh, h1] at ha
    simp at ha
  · exact h1

theorem sanStage2_cons_alpha (c : Char) (rest : List Char)
    (hchars : ∀ x ∈ c :: rest, goodChar x = true) (halpha : isAlphaCh c = true) :
    sanStage2 (c :: rest) =
      (if iskeyword (String.mk (c :: rest)) then (c :: rest) ++ ['_'] else c :: rest) := by
  unfold sanStage2
  rw [map_dotRepl_of_good _ hchars]
  dsimp only
  simp only [halpha, Bool.not_true, Bool.false_eq_true, if_false]

theorem sanStage2_cons_notalpha (c : Char) (rest : List Char)
    (hchars : ∀ x ∈ c :: rest, goodChar x = true) (halpha : isAlphaCh c = false) :
    sanStage2 (c :: rest) = '_' :: (c :: rest).filter isAlnumCh := by
  unfold sanStage2
  rw [map_dotRepl_of_good _ hchars]
  dsimp only
  simp only [halpha, Bool.not_false, if_true]
  rw [if_neg (by simp [not_iskeyword_underscore_cons])]

theorem sanStage2_props (ws : List (List Char))
    (hws : ∀ w ∈ ws, w ≠ [] ∧ w.all sChar = true) :
    sanStage2 (interU ws) ≠ [] ∧
      (∀ c ∈ sanStage2 (interU ws), goodChar c = true) ∧
      (isLowerAlpha ((sanStage2 (interU ws)).headD ' ') = true ∨
        (sanStage2 (interU ws)).headD ' ' = '_') ∧
      iskeyword (String.mk (sanStage2 (interU ws))) = false ∧
      sanStage2 (slugifyL (sanStage2 (interU ws))) = sanStage2 (interU ws) := by
  have hchars : ∀ c ∈ interU ws, goodChar c = true :=
    interU_chars ws (fun w hw => (hws w hw).2)
  have hslug : slugifyL (interU ws) = interU ws := slugifyL_canonical ws hws
  have htrail : slugifyL (interU ws ++ ['_']) = interU ws := by
    unfold slugifyL
    rw [map_toLower_of_good _ (by
      intro c hc
      rcases List.mem_append.1 hc with hc | hc
      · exact hchars c hc
      · simp only [List.mem_singleton] at hc
        subst hc
        rfl)]
    rw [slugWords_interU_trail _ hws]
  cases ws with
  | nil =>
    exact ⟨by decide, by decide, by decide, by decide, by decide⟩
  | cons w ws' =>
    obtain ⟨hwne, hwall⟩ := hws w (List.mem_cons_self w ws')
    obtain ⟨c0, w', rfl⟩ : ∃ c0 w2, w = c0 :: w2 := by
      cases w with
      | nil => exact absurd rfl hwne
      | cons a b => exact ⟨a, b, rfl⟩
    have hc0 : sChar c0 = true := by
      have := List.all_eq_true.1 hwall c0 (List.mem_cons_self c0 w')
      simpa using this
    obtain ⟨r, hr⟩ : ∃ r, interU ((c0 :: w') :: ws') = c0 :: r := by
      cases ws' with
      | nil => exact ⟨w', rfl⟩
      | cons w2 ws2 => exact ⟨w' ++ '_' :: interU (w2 :: ws2), rfl⟩
    have hF : (c0 :: r).filter isAlnumCh = ((c0 :: w') :: ws').flatten := by
      rw [← hr]
      exact filter_alnum_interU _ (fun v hv => (hws v hv).2)
    have hFall : (((c0 :: w') :: ws').flatten).all sChar = true :=
      flatten_all_sChar _ (fun v hv => (hws v hv).2)
    have hFshape : ((c0 :: w') :: ws').flatten = c0 :: (w' ++ ws'.flatten) := by
      simp [List.flatten]
    rw [hr] at hchars hslug htrail ⊢
    by_cases halpha : isAlphaCh c0 = true
    · have hlow : isLowerAlpha c0 = true := lower_of_sChar_alpha hc0 halpha
      rw [sanStage2_cons_alpha c0 r hchars halpha]
      by_cases hkw : iskeyword (String.mk (c0 :: r)) = true
      · rw [if_pos hkw]
        refine ⟨by simp, ?_, ?_, not_iskeyword_append_underscore _, ?_⟩
        · intro c hc
          rcases List.mem_append.1 hc with hc | hc
          · exact hchars c hc
          · simp only [List.mem_singleton] at hc
            subst hc
            rfl
        · left
          simpa using hlow
        · rw [htrail, sanStage2_cons_alpha c0 r hchars halpha, if_pos hkw]
      · rw [if_neg hkw]
        refine ⟨by simp, hchars, Or.inl (by simpa using hlow), by simpa using hkw, ?_⟩
        rw [hslug, sanStage2_cons_alpha c0 r hchars halpha, if_neg hkw]
    · have hdig : isDigitCh c0 = true :=
        digit_of_sChar_not_alpha hc0 (by simpa using halpha)
      rw [sanStage2_cons_notalpha c0 r hchars (by simpa using halpha)]
      have hFgood : ∀ c ∈ '_' :: (c0 :: r).filter isAlnumCh, goodChar c = true := by
        intro c hc
        rcases List.mem_cons.1 hc with hc | hc
        · subst hc
          rfl
        · rw [hF] at hc
          have := List.all_eq_true.1 hFall c hc
          simp only [goodChar, Bool.or_eq_true]
          exact Or.inl (by simpa using this)
      refine ⟨by simp, hFgood, Or.inr (by simp), not_iskeyword_underscore_cons _, ?_⟩
      have hslug3 : slugifyL ('_' :: (c0 :: r).filter isAlnumCh) =
          (c0 :: r).filter isAlnumCh := by
        unfold slugifyL
        rw [show ('_' :: (c0 :: r).filter isAlnumCh).map Char.toLower =
            '_' :: ((c0 :: r).filter isAlnumCh).map Char.toLower by simp]
        rw [map_toLower_of_good _ (fun c hc => hFgood c (List.mem_cons_of_mem _ hc))]
        rw [show slugWords ('_' :: (c0 :: r).filter isAlnumCh) =
            slugWordsAux ((c0 :: r).filter isAlnumCh) [] from slugWordsAux_sep_nil _]
        rw [hF]
        rw [show slugWordsAux (((c0 :: w') :: ws').flatten) [] =
            slugWords (((c0 :: w') :: ws').flatten) from rfl]
        rw [slugWords_single _ (by rw [hFshape]; simp) hFall]
        simp [interU]
      rw [hslug3]
      have hFgood2 : ∀ c ∈ (c0 :: r).filter isAlnumCh, goodChar c = true :=
        fun c hc => hFgood c (List.mem_cons_of_mem _ hc)
      rw [hF, hFshape] at hFgood2 ⊢
      rw [sanStage2_cons_notalpha c0 (w' ++ ws'.flatten) hFgood2 (by simpa using halpha)]
      rw [← hFshape, filter_alnum_of_sChar _ hFall]

theorem sanitizePart_props (s : String) :
    sanitizePart s ≠ [] ∧
      (∀ c ∈ sanitizePart s, goodChar c = true) ∧
      (isLowerAlpha ((sanitizePart s).headD ' ') = true ∨
        (sanitizePart s).headD ' ' = '_') ∧
      iskeyword (String.mk (sanitizePart s)) = false ∧
      sanStage2 (slugifyL (sanitizePart s)) = sanitizePart s := by
  have h := sanStage2_props (slugWords (s.data.map Char.toLower))
    (fun w hw => slugWordsAux_facts _ [] rfl w hw)
  exact h

theorem notUpper_of_good {c : Char} (h : goodChar c = true) : isUpperAlpha c = false := by
  simp only [goodChar, sChar, isLowerAlpha, isDigitCh, Bool.or_eq_true, Bool.and_eq_true,
    decide_eq_true_eq] at h
  simp only [isUpperAlpha, Bool.and_eq_false_iff, decide_eq_false_iff_not]
  rcases h with (h | h) | h
  · right; omega
  · left; omega
  · subst h; right; decide

theorem sub1_id : ∀ (l : List Char), (∀ c ∈ l, isUpperAlpha c = false) →
    underSub1 l = l := by
  intro l
  induction l with
  | nil => intro _; rfl
  | cons a l ih =>
    intro h
    cases l with
    | nil => rfl
    | cons b l2 =>
      cases l2 with
      | nil => rfl
      | cons c rest =>
        rw [underSub1]
        rw [if_neg (by simp [h a (List.mem_cons_self a _)])]
        rw [ih (fun d hd => h d (List.mem_cons_of_mem a hd))]

theorem sub2_id : ∀ (l : List Char), (∀ c ∈ l, isUpperAlpha c = false) →
    underSub2 l = l := by
  intro l
  induction l with
  | nil => intro _; rfl
  | cons a l ih =>
    intro h
    cases l with
    | nil => rfl
    | cons b l2 =>
      rw [underSub2]
      rw [if_neg (by simp [h b (List.mem_cons_of_mem a (List.mem_cons_self b _))])]
      rw [ih (fun d hd => h d (List.mem_cons_of_mem a hd))]

theorem map_dashRepl_of_good : ∀ (l : List Char), (∀ c ∈ l, goodChar c = true) →
    l.map (fun c => if c = '-' then '_' else c) = l := by
  intro l
  induction l with
  | nil => intro _; rfl
  | cons c l ih =>
    intro h
    simp only [List.map_cons]
    rw [if_neg (by
      intro hcon
      subst hcon
      exact absurd (h '-' (List.mem_cons_self _ l)) (by decide)),
      ih (fun d hd => h d (List.mem_cons_of_mem c hd))]

theorem underscoreL_of_good (l : List Char) (h : ∀ c ∈ l, goodChar c = true) :
    underscoreL l = l := by
  unfold underscoreL
  rw [sub1_id l (fun c hc => notUpper_of_good (h c hc)),
    sub2_id l (fun c hc => notUpper_of_good (h c hc)),
    map_dashRepl_of_good l h, map_toLower_of_good l h]

/-- C8 amended: sanitization is idempotent for the snake and const case styles
(the camel and title styles are not; see the counterexample). -/
theorem c8_amended (s : String) :
    str_to_py_identifier (str_to_py_identifier s CaseType.snake) CaseType.snake =
        str_to_py_identifier s CaseType.snake ∧
      str_to_py_identifier (str_to_py_identifier s CaseType.const) CaseType.const =
        str_to_py_identifier s CaseType.const := by
  obtain ⟨hne, hchars, hhead, hkw, hres⟩ := sanitizePart_props s
  constructor
  · have h1 : str_to_py_identifier s .snake = String.mk (sanitizePart s) := by
      show String.mk (underscoreL (sanitizePart s)) = _
      rw [underscoreL_of_good _ hchars]
    rw [h1]
    show String.mk (underscoreL (sanitizePart (String.mk (sanitizePart s)))) = _
    have h2 : sanitizePart (String.mk (sanitizePart s)) = sanitizePart s := by
      show sanStage2 (slugifyL (String.mk (sanitizePart s)).data) = _
      exact hres
    rw [h2, underscoreL_of_good _ hchars]
  · have h1 : str_to_py_identifier s .const =
        String.mk ((sanitizePart s).map Char.toUpper) := by
      show String.mk ((underscoreL (sanitizePart s)).map Char.toUpper) = _
      rw [underscoreL_of_good _ hchars]
    rw [h1]
    show String.mk ((underscoreL (sanitizePart
        (String.mk ((sanitizePart s).map Char.toUpper)))).map Char.toUpper) = _
    have hup : sanitizePart (String.mk ((sanitizePart s).map Char.toUpper)) =
        sanitizePart s := by
      show sanStage2 (slugifyL ((sanitizePart s).map Char.toUpper)) = _
      have hsl : slugifyL ((sanitizePart s).map Char.toUpper) =
          slugifyL (sanitizePart s) := by
        unfold slugifyL
        rw [List.map_map]
        have he : ∀ c ∈ sanitizePart s, (Char.toLower ∘ Char.toUpper) c =
            Char.toLower c := by
          intro c hc
          simp only [Function.comp_apply]
          rw [toLower_toUpper_of_good (hchars c hc), toLower_of_good (hchars c hc)]
        rw [List.map_congr_left he]
      rw [hsl]
      exact hres
    rw [hup, underscoreL_of_good _ hchars]

theorem sChar_good {c : Char} (h : sChar c = true) : goodChar c = true := by
  simp [goodChar, h]

theorem good_alnum {c : Char} (h : goodChar c = true) : (isAlnumCh c || c = '_') = true := by
  simp only [goodChar, Bool.or_eq_true] at h ⊢
  rcases h with h | h
  · left; simp [isAlnumCh, isAlphaCh, sChar, Bool.or_eq_true] at h ⊢; tauto
  · right; exact h

theorem sChar_alnum {c : Char} (h : sChar c = true) : isAlnumCh c = true := by
  simp only [sChar, Bool.or_eq_true] at h
  simp only [isAlnumCh, isAlphaCh, Bool.or_eq_true]
  tauto

theorem sChar_toUpper_alnum {c : Char} (h : sChar c = true) :
    isAlnumCh c.toUpper = true := by
  simp only [sChar, Bool.or_eq_true] at h
  rcases h with h | h
  · simp [isAlnumCh, isAlphaCh, isUpper_toUpper_of_lower h]
  · rw [toUpper_of_nonlower]
    · simp [isAlnumCh, h]
    · simp only [isLowerAlpha, isDigitCh, Bool.and_eq_true, decide_eq_true_eq] at h ⊢
      simp only [Bool.and_eq_false_iff, decide_eq_false_iff_not]
      left; omega

theorem camelTail_u (c : Char) (rest : List Char) (h : ¬c = '\n') :
    camelTail ('_' :: c :: rest) = c.toUpper :: camelTail rest := by
  simp only [camelTail]
  rw [if_neg h]

theorem camelTail_cons_ne (c : Char) (rest : List Char) (h : ¬c = '_') :
    camelTail (c :: rest) = c :: camelTail rest := by
  rw [camelTail.eq_def]
  split
  next c2 rest2 heq =>
    exact absurd rfl (by injection heq with h1 _; exact h1 ▸ h)
  next c2 rest2 heq =>
    injection heq with h1 h2
    rw [h1, h2]
  next heq => exact absurd heq (by simp)

theorem camelTail_chars : ∀ (l : List Char), (∀ c ∈ l, goodChar c = true) →
    ∀ d ∈ camelTail l, (isAlnumCh d || d = '_') = true := by
  intro l
  induction l using camelTail.induct with
  | case1 rest ih =>
    intro hg
    exact absurd (hg '\n' (by simp)) (by decide)
  | case2 c rest h ih =>
    intro hg d hd
    rw [camelTail_u c rest h] at hd
    rcases List.mem_cons.1 hd with hd | hd
    · subst hd
      exact goodChar_toUpper (hg c (by simp))
    · exact ih (fun e he => hg e (by simp [he])) d hd
  | case3 c rest x ih =>
    intro hg d hd
    by_cases hc : c = '_'
    · cases rest with
      | nil =>
        subst hc
        have hone : camelTail ['_'] = ['_'] := by decide
        rw [hone] at hd
        simp only [List.mem_singleton] at hd
        subst hd
        simp
      | cons b bs => exact (x b bs hc rfl).elim
    · rw [camelTail_cons_ne c rest hc] at hd
      rcases List.mem_cons.1 hd with hd | hd
      · subst hd
        exact good_alnum (hg d (by simp))
      · exact ih (fun e he => hg e (by simp [he])) d hd
  | case4 =>
    intro _ d hd
    simp [camelTail] at hd

theorem camelTail_lower_id : ∀ (l : List Char), (∀ c ∈ l, goodChar c = true) →
    (∀ d ∈ camelTail l, isLowerAlpha d = true) → camelTail l = l := by
  intro l
  induction l using camelTail.induct with
  | case1 rest ih =>
    intro hg _
    exact absurd (hg '\n' (by simp)) (by decide)
  | case2 c rest h ih =>
    intro hg hl
    exfalso
    have hmem : c.toUpper ∈ camelTail ('_' :: c :: rest) := by
      rw [camelTail_u c rest h]
      simp
    have hlm := hl _ hmem
    rw [notLower_toUpper c] at hlm
    exact absurd hlm (by simp)
  | case3 c rest x ih =>
    intro hg hl
    by_cases hc : c = '_'
    · cases rest with
      | nil =>
        subst hc
        decide
      | cons b bs => exact (x b bs hc rfl).elim
    · rw [camelTail_cons_ne c rest hc]
      rw [ih (fun e he => hg e (by simp [he]))
        (fun d hd => hl d (by rw [camelTail_cons_ne c rest hc]; simp [hd]))]
  | case4 => intro _ _; rfl

theorem camelizeF_not_keyword (t : List Char) (hne : t ≠ [])
    (hchars : ∀ c ∈ t, goodChar c = true)
    (hhead : isLowerAlpha (t.headD ' ') = true ∨ t.headD ' ' = '_')
    (hkw : iskeyword (String.mk t) = false) :
    iskeyword (String.mk (camelizeF t)) = false := by
  cases t with
  | nil => exact absurd rfl hne
  | cons c rest =>
    simp only [List.headD_cons] at hhead
    by_contra hcon
    simp only [Bool.not_eq_false] at hcon
    have hcf : camelizeF (c :: rest) = c :: camelTail rest := by
      show c.toLower :: camelTail rest = _
      rw [toLower_of_good (hchars c (by simp))]
    rw [hcf] at hcon
    have hk := iskeyword_mem hcon
    have hhd2 : c ≠ '_' := by simpa using kw_head_ne hk
    have hcl : isLowerAlpha c = true := hhead.resolve_right hhd2
    rcases kw_lower_or_tfn hk with hall | htfn
    · have hrl : ∀ d ∈ camelTail rest, isLowerAlpha d = true := by
        intro d hd
        exact List.all_eq_true.1 hall d (List.mem_cons_of_mem c hd)
      have hid := camelTail_lower_id rest (fun e he => hchars e (by simp [he])) hrl
      rw [hid] at hcon
      exact absurd hcon (by simp [hkw])
    · rcases htfn with h | h | h
      · have hdata : c :: camelTail rest = ['T', 'r', 'u', 'e'] := congrArg String.data h
        injection hdata with h1 _
        rw [h1] at hcl
        exact absurd hcl (by decide)
      · have hdata : c :: camelTail rest = ['F', 'a', 'l', 's', 'e'] := congrArg String.data h
        injection hdata with h1 _
        rw [h1] at hcl
        exact absurd hcl (by decide)
      · have hdata : c :: camelTail rest = ['N', 'o', 'n', 'e'] := congrArg String.data h
        injection hdata with h1 _
        rw [h1] at hcl
        exact absurd hcl (by decide)

theorem splitU_ne_nil : ∀ (l : List Char), splitU l ≠ [] := by
  intro l
  induction l with
  | nil => simp [splitU]
  | cons c rest ih =>
    simp only [splitU]
    split
    · simp
    · cases hsp : splitU rest with
      | nil => exact (ih hsp).elim
      | cons w ws => simp [hsp]

theorem splitU_cons_ne (c : Char) (rest : List Char) (h : ¬c = '_') :
    ∃ w ws, splitU rest = w :: ws ∧ splitU (c :: rest) = (c :: w) :: ws := by
  obtain ⟨w, ws, hws⟩ : ∃ w ws, splitU rest = w :: ws := by
    cases hsp : splitU rest with
    | nil => exact (splitU_ne_nil rest hsp).elim
    | cons w ws => exact ⟨w, ws, rfl⟩
  refine ⟨w, ws, hws, ?_⟩
  simp only [splitU]
  rw [if_neg h, hws]

theorem splitU_chars : ∀ (l : List Char), (∀ c ∈ l, goodChar c = true) →
    ∀ w ∈ splitU l, ∀ c ∈ w, sChar c = true := by
  intro l
  induction l with
  | nil =>
    intro _ w hw
    simp only [splitU, List.mem_singleton] at hw
    subst hw
    simp
  | cons c rest ih =>
    intro hg w hw
    by_cases hc : c = '_'
    · subst hc
      have hsp : splitU ('_' :: rest) = [] :: splitU rest := by
        simp [splitU]
      rw [hsp] at hw
      rcases List.mem_cons.1 hw with hw | hw
      · subst hw; simp
      · exact ih (fun e he => hg e (by simp [he])) w hw
    · obtain ⟨w0, ws, hws, hsp⟩ := splitU_cons_ne c rest hc
      rw [hsp] at hw
      rcases List.mem_cons.1 hw with hw | hw
      · subst hw
        intro d hd
        rcases List.mem_cons.1 hd with hd | hd
        · subst hd
          have hgc := hg d (by simp)
          simp only [goodChar, Bool.or_eq_true, decide_eq_true_eq] at hgc
          exact hgc.resolve_right hc
        · exact ih (fun e he => hg e (by simp [he])) w0 (hws ▸ List.mem_cons_self w0 ws) d hd
      · exact ih (fun e he => hg e (by simp [he])) w (hws ▸ List.mem_cons_of_mem w0 hw)

theorem title_chars (t : List Char) (hchars : ∀ c ∈ t, goodChar c = true) :
    ∀ d ∈ (splitU t).flatMap capitalizeW, isAlnumCh d = true := by
  intro d hd
  simp only [List.mem_flatMap] at hd
  obtain ⟨w, hw, hdw⟩ := hd
  have hwchars := splitU_chars t hchars w hw
  cases w with
  | nil => simp [capitalizeW] at hdw
  | cons a w2 =>
    have hcap : capitalizeW (a :: w2) = a.toUpper :: w2.map Char.toLower := rfl
    rw [hcap] at hdw
    rcases List.mem_cons.1 hdw with hd2 | hd2
    · subst hd2
      exact sChar_toUpper_alnum (hwchars a (by simp))
    · simp only [List.mem_map] at hd2
      obtain ⟨b, hb, hbe⟩ := hd2
      have hbs := hwchars b (List.mem_cons_of_mem a hb)
      rw [← hbe, toLower_of_good (sChar_good hbs)]
      exact sChar_alnum hbs

theorem isPyIdentifier_mk (c : Char) (rest : List Char)
    (h1 : (isAlphaCh c || c = '_') = true)
    (h2 : ∀ d ∈ rest, (isAlnumCh d || d = '_') = true) :
    isPyIdentifier (String.mk (c :: rest)) = true := by
  show ((isAlphaCh c || c = '_') && rest.all (fun d => isAlnumCh d || d = '_')) = true
  rw [h1, List.all_eq_true.2 h2]
  rfl

/-- C5 amended: `str_to_py_identifier` always returns a syntactically valid
Python identifier; its output is never a reserved keyword for the snake, camel
and const styles, while in title style the only keywords it can produce are
`True`, `False` and `None`. -/
theorem c5_amended (s : String) (ct : CaseType) :
    isPyIdentifier (str_to_py_identifier s ct) = true ∧
      (iskeyword (str_to_py_identifier s ct) = true →
        ct = CaseType.title ∧
          (str_to_py_identifier s ct = "True" ∨ str_to_py_identifier s ct = "False" ∨
            str_to_py_identifier s ct = "None")) := by
  obtain ⟨hne, hchars, hhead, hkw, _⟩ := sanitizePart_props s
  obtain ⟨c, rest, ht⟩ : ∃ c rest, sanitizePart s = c :: rest := by
    cases hsp : sanitizePart s with
    | nil => exact absurd hsp hne
    | cons c rest => exact ⟨c, rest, rfl⟩
  rw [ht] at hchars hkw hhead
  simp only [List.headD_cons] at hhead
  have hcg := hchars c (List.mem_cons_self c rest)
  have hhd1 : (isAlphaCh c || c = '_') = true := by
    rcases hhead with h | h
    · simp [isAlphaCh, h]
    · simp [h]
  cases ct with
  | snake =>
    have e1 : str_to_py_identifier s .snake = String.mk (c :: rest) := by
      show String.mk (underscoreL (sanitizePart s)) = _
      rw [ht, underscoreL_of_good _ hchars]
    rw [e1]
    refine ⟨isPyIdentifier_mk c rest hhd1
      (fun d hd => good_alnum (hchars d (List.mem_cons_of_mem c hd))), ?_⟩
    intro hcon
    exact absurd hcon (by simp [hkw])
  | camel =>
    have e1 : str_to_py_identifier s .camel = String.mk (c :: camelTail rest) := by
      show String.mk (camelizeF (sanitizePart s)) = _
      rw [ht]
      show String.mk (c.toLower :: camelTail rest) = _
      rw [toLower_of_good hcg]
    rw [e1]
    constructor
    · exact isPyIdentifier_mk c _ hhd1
        (fun d hd => camelTail_chars rest (fun e he => hchars e (List.mem_cons_of_mem c he)) d hd)
    · intro hcon
      exfalso
      have hnk := camelizeF_not_keyword (c :: rest) (by simp) hchars (by simpa using hhead) hkw
      have e2 : camelizeF (c :: rest) = c :: camelTail rest := by
        show c.toLower :: camelTail rest = _
        rw [toLower_of_good hcg]
      rw [e2] at hnk
      exact absurd hcon (by simp [hnk])
  | title =>
    by_cases hc : c = '_'
    · have e1 : str_to_py_identifier s .title =
          String.mk ('_' :: (splitU (c :: rest)).flatMap capitalizeW) := by
        show String.mk ((if (sanitizePart s).headD ' ' = '_' then ['_'] else []) ++
          (splitU (sanitizePart s)).flatMap capitalizeW) = _
        rw [ht]
        rw [if_pos (by simp [hc])]
        rfl
      rw [e1]
      constructor
      · apply isPyIdentifier_mk
        · simp
        · intro d hd
          simp [title_chars (c :: rest) hchars d hd]
      · intro hcon
        exfalso
        have hk := iskeyword_mem hcon
        have h2 : ('_' :: (splitU (c :: rest)).flatMap capitalizeW).headD '_' ≠ '_' :=
          kw_head_ne hk
        exact h2 rfl
    · have hcl : isLowerAlpha c = true := hhead.resolve_right hc
      obtain ⟨w, ws, hws, hsp⟩ := splitU_cons_ne c rest hc
      have e1 : str_to_py_identifier s .title =
          String.mk (c.toUpper :: (w.map Char.toLower ++ ws.flatMap capitalizeW)) := by
        show String.mk ((if (sanitizePart s).headD ' ' = '_' then ['_'] else []) ++
          (splitU (sanitizePart s)).flatMap capitalizeW) = _
        rw [ht]
        rw [if_neg (by simpa using hc)]
        rw [hsp]
        rfl
      have hfm : (splitU (c :: rest)).flatMap capitalizeW =
          c.toUpper :: (w.map Char.toLower ++ ws.flatMap capitalizeW) := by
        rw [hsp]
        rfl
      rw [e1]
      constructor
      · apply isPyIdentifier_mk
        · simp [isAlphaCh, isUpper_toUpper_of_lower hcl]
        · intro d hd
          have hmem : d ∈ (splitU (c :: rest)).flatMap capitalizeW := by
            rw [hfm]
            exact List.mem_cons_of_mem _ hd
          simp [title_chars (c :: rest) hchars d hmem]
      · intro hcon
        refine ⟨rfl, ?_⟩
        have hk := iskeyword_mem hcon
        rcases kw_lower_or_tfn hk with hall | htfn
        · exfalso
          have hl : isLowerAlpha c.toUpper = true :=
            List.all_eq_true.1 hall c.toUpper (List.mem_cons_self _ _)
          rw [notLower_toUpper] at hl
          exact absurd hl (by simp)
        · exact htfn
  | const =>
    have e1 : str_to_py_identifier s .const =
        String.mk (c.toUpper :: rest.map Char.toUpper) := by
      show String.mk ((underscoreL (sanitizePart s)).map Char.toUpper) = _
      rw [ht, underscoreL_of_good _ hchars]
      rfl
    rw [e1]
    constructor
    · apply isPyIdentifier_mk
      · rcases hhead with h | h
        · simp [isAlphaCh, isUpper_toUpper_of_lower h]
        · subst h
          decide
      · intro d hd
        simp only [List.mem_map] at hd
        obtain ⟨e, he, hde⟩ := hd
        rw [← hde]
        exact goodChar_toUpper (hchars e (List.mem_cons_of_mem c he))
    · intro hcon
      exfalso
      have hk := iskeyword_mem hcon
      have hany : (c.toUpper :: rest.map Char.toUpper).any isLowerAlpha = true :=
        kw_has_lower hk
      rw [List.any_eq_true] at hany
      obtain ⟨d, hd, hld⟩ := hany
      rcases List.mem_cons.1 hd with hd | hd
      · subst hd
        rw [notLower_toUpper] at hld
        exact absurd hld (by simp)
      · simp only [List.mem_map] at hd
        obtain ⟨e, he, hde⟩ := hd
        rw [← hde, notLower_toUpper] at hld
        exact absurd hld (by simp)

/-- C5 amended, witnessed at a concrete input: the title-cased sanitization of
the column name true is the reserved keyword True, yet still a valid
identifier. -/
theorem c5_amended_witness :
    isPyIdentifier (str_to_py_identifier "true" CaseType.title) = true ∧
      (str_to_py_identifier "true" CaseType.title = "True" ∨
        str_to_py_identifier "true" CaseType.title = "False" ∨
        str_to_py_identifier "true" CaseType.title = "None") :=
  ⟨(c5_amended "true" CaseType.title).1,
    ((c5_amended "true" CaseType.title).2 (by decide)).2⟩
